import Mathlib

/-!
Verification of the LaTeX-to-Markdown converter (`latex_converter`).

The source is embedded shallowly: documents are lists of characters, each
regex-based rewrite of the Python code is translated into an explicit
scanner that mirrors the semantics of the corresponding pattern
(leftmost match, non-overlapping substitution, lazy groups stopping at the
first closing brace, greedy character-class runs), and the explicit
`while` loops of the code become recursions.  Scanners whose cursor can
jump by a computed amount take an explicit fuel argument; entry points
pass `length + 1`, which is sufficient because every step of the
corresponding Python loop advances the cursor by at least one character.
-/

namespace LatexConv

/-- Python `str.strip()` whitespace, restricted to the ASCII range. -/
def isPySpace (c : Char) : Bool :=
  c = ' ' || c = '\t' || c = '\n' || c = '\x0d' || c = '\x0b' || c = '\x0c'

/-- Space or tab, the character class `[ \t]`. -/
def isSpTab (c : Char) : Bool :=
  c = ' ' || c = '\t'

/-- Remove leading Python whitespace. -/
def trimLeft (s : List Char) : List Char :=
  s.dropWhile isPySpace

/-- Remove trailing Python whitespace. -/
def trimRight (s : List Char) : List Char :=
  (s.reverse.dropWhile isPySpace).reverse

/-- Python `str.strip()`. -/
def pyStrip (s : List Char) : List Char :=
  trimRight (trimLeft s)

/-- Split `s` at the first occurrence of the literal `pat`, returning the
text before the occurrence and the text after it.  `none` when `pat` does
not occur.  This is the shape of a lazy regex group `(.*?)pat`. -/
def splitOnFirst (pat : List Char) : List Char → Option (List Char × List Char)
  | [] => if pat = [] then some ([], []) else none
  | c :: cs =>
    if pat.isPrefixOf (c :: cs) then some ([], (c :: cs).drop pat.length)
    else
      match splitOnFirst pat cs with
      | some (a, b) => some (c :: a, b)
      | none => none

/-- Split at the first `}`: the run `[^}]*` of a caption/label pattern,
followed by the closing brace.  Returns (run, text after the brace). -/
def breakRB (s : List Char) : Option (List Char × List Char) :=
  splitOnFirst ['\x7d'] s

/-- Like `breakRB` but the run may not cross a newline: the shape of a
lazy group `(.*?)\x7d` in a pattern compiled without `re.DOTALL`. -/
def breakRBnoNL : List Char → Option (List Char × List Char)
  | [] => none
  | c :: cs =>
    if c = '\x7d' then some ([], cs)
    else if c = '\n' then none
    else
      match breakRBnoNL cs with
      | some (a, b) => some (c :: a, b)
      | none => none

/-- Join a list of strings with a separator, Python `sep.join(l)`. -/
def joinWith (sep : List Char) : List (List Char) → List Char
  | [] => []
  | [a] => a
  | a :: b :: rest => a ++ sep ++ joinWith sep (b :: rest)

/- ### The brace scanner

`extract_title_authors` (latex_processing.py, lines 45-63 and 66-84),
the caption loop of `figure_repl` (converters.py, lines 85-110), the
caption loop of `table_repl` (converters.py, lines 259-282) and
`remove_captions_and_labels` (converters.py, lines 238-246) all run the
same loop

    while i < len(text) and brace_level > 0:
        if text[i] == '{': brace_level += 1
        elif text[i] == '}': brace_level -= 1
        i += 1

starting from the position just after an opening brace.  `braceScan cs lvl`
runs it on the remaining text `cs` with current depth `lvl` and returns
(number of characters consumed, final depth). -/

/-- One step of the brace-depth update: `{` increments, `}` decrements. -/
def braceStep (c : Char) (lvl : Nat) : Nat :=
  if c = '\x7b' then lvl + 1 else if c = '\x7d' then lvl - 1 else lvl

/-- The brace-scanning loop shared by title/author extraction and caption
extraction: consumes one character per iteration, stops when the text is
exhausted or the depth reaches 0. -/
def braceScan : List Char → Nat → Nat × Nat
  | [], lvl => (0, lvl)
  | c :: cs, lvl =>
    if lvl = 0 then (0, lvl)
    else
      let p := braceScan cs (braceStep c lvl)
      (p.1 + 1, p.2)

theorem braceScan_le (cs : List Char) (lvl : Nat) :
    (braceScan cs lvl).1 ≤ cs.length := by
  induction cs generalizing lvl with
  | nil => simp [braceScan]
  | cons c cs ih =>
    simp only [braceScan, List.length_cons]
    split
    · simp
    · simpa using Nat.succ_le_succ (ih (braceStep c lvl))

/-- C1: for every input text and start position, the brace-scanning loop
used by title/author extraction and caption extraction terminates after at
most as many iterations as there are remaining characters (whatever the
brace depth, balanced or not), and each iteration that runs (remaining
text nonempty, depth positive) consumes exactly one character. -/
theorem brace_scanner_terminates (cs : List Char) (lvl : Nat) :
    (braceScan cs lvl).1 ≤ cs.length ∧
      ∀ c : Char, (braceScan (c :: cs) (lvl + 1)).1 =
        (braceScan cs (braceStep c (lvl + 1))).1 + 1 := by
  refine ⟨braceScan_le cs lvl, fun c => ?_⟩
  simp [braceScan]

/- ### Title and author extraction (latex_processing.py, lines 23-86) -/

/-- The literal `\title` command opener. -/
def titleTok : List Char := "\\title\x7b".toList

/-- The literal `\author` command opener. -/
def authorTok : List Char := "\\author\x7b".toList

/-- Find the first `tok` (e.g. `\title` followed by its opening brace),
scan to the matching brace, and return (text with the declaration removed,
extracted argument).  On unbalanced braces the remainder of the text is
the argument and everything from the command on is removed, as in the
`else` branches of `extract_title_authors`. -/
def extractCmd (tok : List Char) (text : List Char) : List Char × List Char :=
  match splitOnFirst tok text with
  | none => (text, [])
  | some (before, rest) =>
    let p := braceScan rest 1
    if p.2 = 0 then (before ++ rest.drop p.1, pyStrip (rest.take (p.1 - 1)))
    else (before, pyStrip rest)

/-- `extract_title_authors`: first the title, then the authors on the
already-modified text.  Returns (text, title, authors). -/
def extract_title_authors (text : List Char) : List Char × List Char × List Char :=
  let t := extractCmd titleTok text
  let a := extractCmd authorTok t.1
  (a.1, t.2, a.2)

/- ### Label markers

The pattern `\\label\{([^}]+)\}` used by `figure_repl` (converters.py
line 115), `table_repl` (line 287) and the caption cleanups. -/

/-- The literal `\label` command opener. -/
def labelTok : List Char := ['\\', 'l', 'a', 'b', 'e', 'l', '\x7b']

/-- The full text of a label marker with content `x`. -/
def labelStr (x : List Char) : List Char :=
  labelTok ++ x ++ ['\x7d']

/-- Match the pattern `\\label\{([^}]+)\}` at the head of `s`: the literal
opener, then a nonempty run without `}`, then `}`.  Returns (group, rest). -/
def matchLabelAt (s : List Char) : Option (List Char × List Char) :=
  if labelTok.isPrefixOf s then
    match breakRB (s.drop labelTok.length) with
    | some (x, rest) => if x = [] then none else some (x, rest)
    | none => none
  else none

/-- `re.findall(r'\\label\{([^}]+)\}', s)`: leftmost, non-overlapping. -/
def findLabelsAux : Nat → List Char → List (List Char)
  | 0, _ => []
  | _ + 1, [] => []
  | fuel + 1, c :: cs =>
    match matchLabelAt (c :: cs) with
    | some (x, rest) => x :: findLabelsAux fuel rest
    | none => findLabelsAux fuel cs

/-- All label groups of `s`, in order. -/
def findLabels (s : List Char) : List (List Char) :=
  findLabelsAux (s.length + 1) s

/-- `re.sub(r'\\label\{[^}]+\}', '', s)`: delete every label marker. -/
def removeLabelsAux : Nat → List Char → List Char
  | 0, s => s
  | _ + 1, [] => []
  | fuel + 1, c :: cs =>
    match matchLabelAt (c :: cs) with
    | some (_, rest) => removeLabelsAux fuel rest
    | none => c :: removeLabelsAux fuel cs

/-- Label deletion at standard fuel. -/
def removeLabels (s : List Char) : List Char :=
  removeLabelsAux (s.length + 1) s

/- ### The scale-wrapping removal loop (converters.py, lines 171-177)

    while True:
        scalebox_match = re.search(r'\\scalebox\{[^\}]*\}\{', inner)
        if not scalebox_match:
            break
        inner = re.sub(r'\\scalebox\{[^\}]*\}\{(.*?)\}', r'\1', inner,
                       flags=re.DOTALL)
-/

/-- The literal `\scalebox` command opener. -/
def scaleboxTok : List Char := "\\scalebox\x7b".toList

/-- Match the search pattern `\\scalebox\{[^\}]*\}\{` at the head of `s`:
opener, a run without `}`, the closing `}`, another `{`.  Returns the
rest after the match. -/
def matchScaleboxAt (s : List Char) : Option (List Char) :=
  if scaleboxTok.isPrefixOf s then
    match breakRB (s.drop scaleboxTok.length) with
    | some (_, rest) =>
      match rest with
      | '\x7b' :: rest2 => some rest2
      | _ => none
    | none => none
  else none

/-- `re.search(r'\\scalebox\{[^\}]*\}\{', s)` succeeds somewhere in `s`. -/
def scaleboxSearch : List Char → Bool
  | [] => false
  | c :: cs => (matchScaleboxAt (c :: cs)).isSome || scaleboxSearch cs

/-- Match the substitution pattern `\\scalebox\{[^\}]*\}\{(.*?)\}` at the
head of `s` (the search pattern followed by a lazy group up to the first
`}`).  Returns (group, rest after the whole match). -/
def matchScaleboxFullAt (s : List Char) : Option (List Char × List Char) :=
  match matchScaleboxAt s with
  | some r => breakRB r
  | none => none

/-- `re.sub(r'\\scalebox\{[^\}]*\}\{(.*?)\}', r'\1', s, flags=re.DOTALL)`:
replace every non-overlapping match by its group. -/
def scaleboxSubAux : Nat → List Char → List Char
  | 0, s => s
  | _ + 1, [] => []
  | fuel + 1, c :: cs =>
    match matchScaleboxFullAt (c :: cs) with
    | some (g, rest) => g ++ scaleboxSubAux fuel rest
    | none => c :: scaleboxSubAux fuel cs

/-- The substitution at standard fuel. -/
def scaleboxSub (s : List Char) : List Char :=
  scaleboxSubAux (s.length + 1) s

/-- `n` iterations of the body of the scale-wrapping removal loop. -/
def scaleboxIterate : Nat → List Char → List Char
  | 0, s => s
  | n + 1, s => scaleboxIterate n (scaleboxSub s)

/-- The whole scale-wrapping removal loop.  `some` is its exit value;
`none` means the loop never exits: either the state reaches a fixed point
of the substitution while the search still succeeds (the Python loop then
repeats that state forever), or the iteration fuel runs out (which cannot
happen at the standard fuel, since each non-fixed-point substitution
strictly shortens the text). -/
def scaleboxLoopAux : Nat → List Char → Option (List Char)
  | 0, _ => none
  | fuel + 1, s =>
    if scaleboxSearch s then
      if scaleboxSub s = s then none else scaleboxLoopAux fuel (scaleboxSub s)
    else some s

/-- The loop at standard fuel. -/
def scaleboxLoop (s : List Char) : Option (List Char) :=
  scaleboxLoopAux (s.length + 1) s

/-- A complete `\begin{table}...\end{table}` environment (it is exactly
what the table regex of `replace_tables` captures from a document
containing it) on which the scale-wrapping removal loop never exits. -/
def scaleboxBadTable : List Char :=
  "\\begin\x7btable\x7d\\scalebox\x7ba\x7d\x7b\\scalebox\x7bx\x7d\x7d\x7b\\scalebox\x7bc\x7d\x7b\\end\x7btable\x7d".toList

/-- The state the loop reaches after one iteration on `scaleboxBadTable`:
the search pattern still matches (`\scalebox{x}{` is present) but the
substitution pattern does not (no `}` after it), so the substitution
leaves the state unchanged and the loop spins forever. -/
def scaleboxStuck : List Char :=
  "\\begin\x7btable\x7d\\scalebox\x7bx\x7d\x7b\\end\x7btable".toList

/-- C2: the transformation pipeline does NOT terminate on every input.
On the table environment `scaleboxBadTable` (a valid document by itself:
no stage before `replace_tables` alters it, and the table regex hands
exactly this text to `convert_tabular_to_markdown`), every iterate of the
scale-wrapping removal loop still satisfies the loop's search condition,
so the `while True` loop of `convert_tabular_to_markdown` never breaks;
equivalently, the loop model reports divergence. -/
theorem scalebox_loop_diverges :
    (∀ n, scaleboxSearch (scaleboxIterate n scaleboxBadTable) = true) ∧
      scaleboxLoop scaleboxBadTable = none := by
  constructor
  · have hstep : scaleboxSub scaleboxBadTable = scaleboxStuck := by decide
    have hfix : scaleboxSub scaleboxStuck = scaleboxStuck := by decide
    have hiter : ∀ m, scaleboxIterate m scaleboxStuck = scaleboxStuck := by
      intro m
      induction m with
      | zero => rfl
      | succ k ih => simpa [scaleboxIterate, hfix] using ih
    intro n
    cases n with
    | zero => decide
    | succ k =>
      show scaleboxSearch (scaleboxIterate k (scaleboxSub scaleboxBadTable)) = true
      rw [hstep, hiter]
      decide
  · decide

/- ### Generic substitution scanner

`subAux m fuel s` mirrors `re.sub`: scan left to right, at each position
try the matcher `m` (which returns the replacement text and the rest of
the input after the whole match); on failure copy one character. -/

/-- Generic `re.sub` scanner. -/
def subAux (m : List Char → Option (List Char × List Char)) :
    Nat → List Char → List Char
  | 0, s => s
  | _ + 1, [] => []
  | fuel + 1, c :: cs =>
    match m (c :: cs) with
    | some (rep, rest) => rep ++ subAux m fuel rest
    | none => c :: subAux m fuel cs

/-- Matcher for replacing a literal: Python `str.replace(pat, rep)` and
`re.sub` on a literal pattern. -/
def litMatcher (pat rep : List Char) (s : List Char) :
    Option (List Char × List Char) :=
  if pat.isPrefixOf s then some (rep, s.drop pat.length) else none

/-- Replace every occurrence of the literal `pat` by `rep`. -/
def replaceLit (pat rep : List Char) (s : List Char) : List Char :=
  subAux (litMatcher pat rep) (s.length + 1) s

/- ### Inline formatting (converters.py, lines 4-33) -/

/-- Matcher for `\\cmd\{(.*?)\}` (no DOTALL): the literal opener `tok`
(command plus `{`), then a lazy group up to the first `}` with no newline
in between.  Returns (group, rest). -/
def matchWrapAt (tok : List Char) (s : List Char) :
    Option (List Char × List Char) :=
  if tok.isPrefixOf s then breakRBnoNL (s.drop tok.length) else none

/-- Alternation of wrap-command openers, tried in pattern order. -/
def matchAltWrapAt (toks : List (List Char)) (s : List Char) :
    Option (List Char × List Char) :=
  match toks with
  | [] => none
  | t :: ts =>
    match matchWrapAt t s with
    | some r => some r
    | none => matchAltWrapAt ts s

/-- One inline-format pass: replace every match of one of `toks` by
`pre ++ group.strip() ++ post`. -/
def inlinePass (toks : List (List Char)) (pre post : List Char)
    (s : List Char) : List Char :=
  subAux
    (fun t =>
      match matchAltWrapAt toks t with
      | some (g, rest) => some (pre ++ pyStrip g ++ post, rest)
      | none => none)
    (s.length + 1) s

/-- `apply_inline_formats`: emph/textit to `*...*`, textbf to `**...**`,
textsc to backtick wrapping, in that order. -/
def apply_inline_formats (s : List Char) : List Char :=
  let s1 := inlinePass [("\\emph\x7b".toList), ("\\textit\x7b".toList)]
    (['*']) (['*']) s
  let s2 := inlinePass [("\\textbf\x7b".toList)] ("**".toList) ("**".toList) s1
  inlinePass [("\\textsc\x7b".toList)] ("`".toList) ("`".toList) s2

/- ### Caption extraction (converters.py, lines 85-110 and 256-282) -/

/-- The literal `\caption` command opener. -/
def capTok : List Char := "\\caption\x7b".toList

/-- The caption loop shared by `figure_repl` and `table_repl`: find the
next `\caption{`, scan to the matching brace with the brace scanner, trim
and strip embedded label markers; on unbalanced braces take the remainder
of the text and stop. -/
def extractCaptionsAux : Nat → List Char → List (List Char)
  | 0, _ => []
  | fuel + 1, s =>
    match splitOnFirst capTok s with
    | none => []
    | some (_, rest) =>
      let p := braceScan rest 1
      if p.2 = 0 then
        pyStrip (removeLabels (pyStrip (rest.take (p.1 - 1)))) ::
          extractCaptionsAux fuel (rest.drop p.1)
      else
        [pyStrip (removeLabels (pyStrip rest))]

/-- Caption extraction at standard fuel. -/
def extractCaptions (s : List Char) : List (List Char) :=
  extractCaptionsAux (s.length + 1) s

/-- `figure_repl` (converters.py, lines 81-123): captions joined with a
space, inline-formatted, then every label marker of the inner text
re-appended verbatim. -/
def figure_repl (inner : List Char) : List Char :=
  let full_caption := apply_inline_formats (pyStrip (joinWith [' '] (extractCaptions inner)))
  let labels := findLabels inner
  ("\n\n**Figure:** ".toList) ++ full_caption
    ++ joinWith [] (labels.map (fun l => ' ' :: labelStr l))
    ++ ("\n\n".toList)

/- ### Nested-tabular detection (converters.py, lines 144-168) -/

/-- The literal `\begin{tabular}` delimiter. -/
def beginTabTok : List Char := "\\begin\x7btabular\x7d".toList

/-- The literal `\end{tabular}` delimiter. -/
def endTabTok : List Char := "\\end\x7btabular\x7d".toList

/-- `has_nested_tabulars`: scan for the leftmost of the two delimiters,
bump the depth counter, answer true as soon as the depth exceeds 1.  The
Python counter is a plain int and may go negative, hence `Int`. -/
def has_nested_tabularsAux : Nat → Int → List Char → Bool
  | 0, _, _ => false
  | _ + 1, _, [] => false
  | fuel + 1, depth, c :: cs =>
    if beginTabTok.isPrefixOf (c :: cs) then
      if depth + 1 > 1 then true
      else has_nested_tabularsAux fuel (depth + 1) ((c :: cs).drop beginTabTok.length)
    else if endTabTok.isPrefixOf (c :: cs) then
      has_nested_tabularsAux fuel (depth - 1) ((c :: cs).drop endTabTok.length)
    else has_nested_tabularsAux fuel depth cs

/-- Nested-tabular detection at standard fuel, starting depth 0. -/
def has_nested_tabulars (s : List Char) : Bool :=
  has_nested_tabularsAux (s.length + 1) 0 s

/- ### Tabular-to-Markdown conversion (converters.py, lines 170-227) -/

/-- Matcher for `\\begin\{tabular\}\{.*?\}(.*?)\\end\{tabular\}` with
DOTALL: delimiter, column spec up to the first `}`, then the body up to
the first `\end{tabular}`.  Returns (body, rest). -/
def matchTabularAt (s : List Char) : Option (List Char × List Char) :=
  if beginTabTok.isPrefixOf s then
    match s.drop beginTabTok.length with
    | '\x7b' :: t =>
      match breakRB t with
      | some (_, u) => splitOnFirst endTabTok u
      | none => none
    | _ => none
  else none

/-- `finditer` of the tabular pattern: all bodies, leftmost first. -/
def findTabularGroupsAux : Nat → List Char → List (List Char)
  | 0, _ => []
  | _ + 1, [] => []
  | fuel + 1, c :: cs =>
    match matchTabularAt (c :: cs) with
    | some (content, rest) => content :: findTabularGroupsAux fuel rest
    | none => findTabularGroupsAux fuel cs

/-- Tabular bodies at standard fuel. -/
def findTabularGroups (s : List Char) : List (List Char) :=
  findTabularGroupsAux (s.length + 1) s

/-- Matcher for `re.findall(r'\\begin\{tabular\}.*?\\end\{tabular\}', s)`:
whole lazy match text kept verbatim (used by the nested fallback). -/
def matchRawTabularAt (s : List Char) : Option (List Char × List Char) :=
  if beginTabTok.isPrefixOf s then
    match splitOnFirst endTabTok (s.drop beginTabTok.length) with
    | some (mid, rest) => some (beginTabTok ++ mid ++ endTabTok, rest)
    | none => none
  else none

/-- The raw tabular spans of `s`, leftmost and non-overlapping. -/
def findRawTabularsAux : Nat → List Char → List (List Char)
  | 0, _ => []
  | _ + 1, [] => []
  | fuel + 1, c :: cs =>
    match matchRawTabularAt (c :: cs) with
    | some (whole, rest) => whole :: findRawTabularsAux fuel rest
    | none => findRawTabularsAux fuel cs

/-- Raw tabular spans at standard fuel. -/
def findRawTabulars (s : List Char) : List (List Char) :=
  findRawTabularsAux (s.length + 1) s

/-- Matcher deleting `\toprule`, `\midrule`, `\bottomrule`. -/
def matchBooktabsAt (s : List Char) : Option (List Char × List Char) :=
  litMatcher ("\\toprule".toList) [] s <|>
    litMatcher ("\\midrule".toList) [] s <|>
      litMatcher ("\\bottomrule".toList) [] s

/-- Matcher deleting `\\cmidrule\{[^\}]*\}`. -/
def matchCmidruleAt (s : List Char) : Option (List Char × List Char) :=
  if ("\\cmidrule\x7b".toList).isPrefixOf s then
    match breakRB (s.drop 10) with
    | some (_, rest) => some ([], rest)
    | none => none
  else none

/-- `re.split(r'\\\\', s)`: split rows on the double-backslash token. -/
def splitDoubleBackslash : List Char → List (List Char)
  | [] => [[]]
  | '\\' :: '\\' :: cs => [] :: splitDoubleBackslash cs
  | c :: cs =>
    match splitDoubleBackslash cs with
    | p :: ps => (c :: p) :: ps
    | [] => [[c]]

/-- `str.split('&')`, keeping empty pieces. -/
def splitAmp : List Char → List (List Char)
  | [] => [[]]
  | '&' :: cs => [] :: splitAmp cs
  | c :: cs =>
    match splitAmp cs with
    | p :: ps => (c :: p) :: ps
    | [] => [[c]]

/-- Matcher for `\\textcolor\{[^\}]*\}\{(.*?)\}` (no DOTALL), replaced by
its group. -/
def matchTextcolorAt (s : List Char) : Option (List Char × List Char) :=
  if ("\\textcolor\x7b".toList).isPrefixOf s then
    match breakRB (s.drop 11) with
    | some (_, rest) =>
      match rest with
      | '\x7b' :: r2 => breakRBnoNL r2
      | _ => none
    | none => none
  else none

/-- Cell-level wrap matcher without trimming: `\\cmd\{(.*?)\}` replaced by
`pre ++ group ++ post` (the row subs of the table converter do not strip
the group, unlike `apply_inline_formats`). -/
def cellWrapMatcher (tok pre post : List Char) (s : List Char) :
    Option (List Char × List Char) :=
  match matchWrapAt tok s with
  | some (g, rest) => some (pre ++ g ++ post, rest)
  | none => none

/-- The per-row rewriting of `convert_tabular_to_markdown` (lines
203-209): textcolor unwrapping, bold and emphasis wrapping, escaped
ampersand and double-backslash replacement, then the split into trimmed
cells. -/
def processRow (r : List Char) : List (List Char) :=
  let r1 := subAux matchTextcolorAt (r.length + 1) r
  let r2 := subAux (cellWrapMatcher ("\\textbf\x7b".toList) ("**".toList) ("**".toList))
    (r1.length + 1) r1
  let r3 := subAux (cellWrapMatcher ("\\emph\x7b".toList) (['*']) (['*'])) (r2.length + 1) r2
  let r4 := replaceLit ("\\&".toList) (['&']) r3
  let r5 := replaceLit ("\\\\".toList) (['\\']) r4
  (splitAmp r5).map pyStrip

/-- The rows of one tabular body: booktabs rules removed, rows split on
`\\`, trimmed, empty rows dropped, each remaining row rewritten. -/
def tabularRows (content : List Char) : List (List (List Char)) :=
  let c1 := subAux matchBooktabsAt (content.length + 1) content
  let c2 := subAux matchCmidruleAt (c1.length + 1) c1
  let rows := ((splitDoubleBackslash c2).map pyStrip).filter (fun r => r ≠ [])
  rows.map processRow

/-- Pad a short row with empty cells, truncate a long one: lines 214-218
of converters.py.  `n` is the header width. -/
def normalizeRow (n : Nat) (row : List (List Char)) : List (List Char) :=
  if row.length < n then row ++ List.replicate (n - row.length) []
  else row.take n

/-- The grid that is actually rendered: the header row fixes the width and
every later row is normalized to it. -/
def mdGrid : List (List (List Char)) → List (List (List Char))
  | [] => []
  | h :: t => h :: t.map (normalizeRow h.length)

/-- Render one tabular's grid as a Markdown pipe table (lines 211-220);
`none` when the body had no rows (the `continue` branch). -/
def mdOfRows (trows : List (List (List Char))) : Option (List Char) :=
  match mdGrid trows with
  | [] => none
  | h :: t =>
    some (("\n\n| ".toList) ++ joinWith (" | ".toList) h ++ (" |\n".toList)
      ++ ("| ".toList) ++ joinWith (" | ".toList) (List.replicate h.length ("---".toList))
      ++ (" |\n".toList)
      ++ joinWith []
        (t.map (fun row => ("| ".toList) ++ joinWith (" | ".toList) row ++ (" |\n".toList)))
      ++ ("\n\n".toList))

/-- `convert_tabular_to_markdown`: outer `none` means the scale-wrapping
removal loop diverges (the Python call never returns); `some none` is the
Python `None` (nested tabulars); `some (some md)` is the Markdown text,
`[]` when nothing was converted. -/
def convert_tabular_to_markdown (inner : List Char) : Option (Option (List Char)) :=
  match scaleboxLoop inner with
  | none => none
  | some inner2 =>
    if has_nested_tabulars inner2 then some none
    else
      some (some (joinWith []
        ((findTabularGroups inner2).filterMap (fun content => mdOfRows (tabularRows content)))))

/-- `remove_captions_and_labels` (converters.py, lines 229-250), caption
bodies dropped via the brace scanner. -/
def remove_captions_and_labelsAux : Nat → List Char → List Char
  | 0, s => s
  | fuel + 1, s =>
    match splitOnFirst capTok s with
    | none => s
    | some (before, rest) =>
      let p := braceScan rest 1
      before ++ remove_captions_and_labelsAux fuel (rest.drop p.1)

/-- Caption and label removal at standard fuel. -/
def remove_captions_and_labels (s : List Char) : List Char :=
  removeLabels (remove_captions_and_labelsAux (s.length + 1) s)

/-- `table_repl` (converters.py, lines 252-308).  `none` when the
conversion call diverges; otherwise the replacement text of the table
environment. -/
def table_repl (entire : List Char) : Option (List Char) :=
  let full_caption := apply_inline_formats (pyStrip (joinWith [' '] (extractCaptions entire)))
  let labels_str := joinWith [' '] ((findLabels entire).map labelStr)
  match convert_tabular_to_markdown entire with
  | none => none
  | some none =>
    some (("\n\n**Table:** ".toList) ++ full_caption ++ [' '] ++ labels_str
      ++ ("\n\n```latex\n".toList) ++ joinWith ['\n'] (findRawTabulars entire)
      ++ ("\n```\n\n".toList))
  | some (some md) =>
    if md = [] then
      some (("\n\n**Table:** ".toList) ++ full_caption ++ [' '] ++ labels_str
        ++ ("\n\n```latex\n".toList) ++ remove_captions_and_labels entire
        ++ ("\n```\n\n".toList))
    else
      some (("\n\n**Table:** ".toList) ++ full_caption ++ [' '] ++ labels_str
        ++ ("\n\n".toList) ++ md ++ ['\n'])

/-- `pat` occurs as a contiguous substring of `s`. -/
def containsSub (pat s : List Char) : Bool :=
  (splitOnFirst pat s).isSome

/-- A table environment with one tabular directly nested inside another,
both wrapped in `\scalebox{s}{...}`:
`\begin{table}\scalebox{s}{\begin{tabular}{c}\begin{tabular}{c}x\end{tabular}\end{tabular}\end{table}`. -/
def nestedScaleboxTable : List Char :=
  "\\begin\x7btable\x7d\\scalebox\x7bs\x7d\x7b\\begin\x7btabular\x7d\x7bc\x7d\\begin\x7btabular\x7d\x7bc\x7dx\\end\x7btabular\x7d\\end\x7btabular\x7d\\end\x7btable\x7d".toList

set_option maxRecDepth 100000 in
/-- C3, counterexample: a table environment whose source contains a
tabular grid directly nested inside another tabular grid (first conjunct)
is nevertheless rendered as a Markdown pipe table with no fenced block
(second and third conjuncts): the scale-wrapping removal step eats the
closing brace of the outer `\begin{tabular}`, so the nesting detector no
longer sees two open grids. -/
theorem nested_table_rendered_as_pipe :
    containsSub (beginTabTok ++ ("\x7bc\x7d".toList) ++ beginTabTok) nestedScaleboxTable = true ∧
      table_repl nestedScaleboxTable =
        some (("\n\n**Table:**  \n\n\n\n| x |\n| --- |\n\n\n\n").toList) ∧
      containsSub ("```".toList)
        (("\n\n**Table:**  \n\n\n\n| x |\n| --- |\n\n\n\n").toList) = false := by
  exact ⟨by decide, by decide, by decide⟩

/-- C3, amended: whenever the scale-wrapping removal loop exits and the
nesting detector still reports nested grids on its result, the table is
not rendered as a pipe table: the replacement is the caption and the
label markers followed by the raw tabular spans of the original source
(each from `\begin{tabular}` to the first following `\end{tabular}`)
inside a fenced block tagged `latex`. -/
theorem table_nested_is_fenced (s s2 : List Char)
    (h1 : scaleboxLoop s = some s2) (h2 : has_nested_tabulars s2 = true) :
    table_repl s =
      some (("\n\n**Table:** ".toList)
        ++ apply_inline_formats (pyStrip (joinWith [' '] (extractCaptions s))) ++ [' ']
        ++ joinWith [' '] ((findLabels s).map labelStr)
        ++ ("\n\n```latex\n".toList) ++ joinWith ['\n'] (findRawTabulars s)
        ++ ("\n```\n\n".toList)) := by
  unfold table_repl convert_tabular_to_markdown
  rw [h1]
  simp [h2]

/-- A nested table with a caption and a label and no scale-wrapping. -/
def nestedPlainTable : List Char :=
  "\\begin\x7btable\x7d\\caption\x7bt\\label\x7bl\x7d\x7d\\begin\x7btabular\x7d\x7bc\x7da\\begin\x7btabular\x7d\x7bc\x7dx\\end\x7btabular\x7db\\end\x7btabular\x7d\\end\x7btable\x7d".toList

set_option maxRecDepth 100000 in
/-- Witness for the amended C3 theorem at a concrete nested table. -/
theorem table_nested_is_fenced_witness :
    table_repl nestedPlainTable =
      some (("\n\n**Table:** t \\label\x7bl\x7d\n\n```latex\n\\begin\x7btabular\x7d\x7bc\x7da\\begin\x7btabular\x7d\x7bc\x7dx\\end\x7btabular\x7d\n```\n\n").toList) :=
  (table_nested_is_fenced nestedPlainTable nestedPlainTable (by decide) (by decide)).trans
    (by decide)

/-- C4: every row of a rendered table grid has exactly the header's cell
count — shorter rows are padded, longer rows truncated by
`normalizeRow`. -/
theorem table_rows_uniform_width (h : List (List Char)) (t : List (List (List Char)))
    (r : List (List Char)) (hr : r ∈ mdGrid (h :: t)) : r.length = h.length := by
  rcases List.mem_cons.mp hr with rfl | hm
  · rfl
  · rcases List.mem_map.mp hm with ⟨a, -, rfl⟩
    unfold normalizeRow
    split
    · simp only [List.length_append, List.length_replicate]
      omega
    · simp only [List.length_take]
      omega

/-- Witness for C4: a one-cell data row under a two-column header is
padded to width 2. -/
theorem table_rows_uniform_width_witness :
    (normalizeRow 2 [("x".toList)]).length = 2 :=
  table_rows_uniform_width [("a".toList), ("b".toList)] [[("x".toList)]]
    (normalizeRow 2 [("x".toList)]) (by decide)

/- ### Equation conversion (converters.py, lines 312-333) -/

/-- `re.sub(r'(\\label\{[^}]+\})\s*', r'\1\n', s)`: keep each label marker
in place and replace the whitespace after it by a single newline. -/
def eqLabelSubAux : Nat → List Char → List Char
  | 0, s => s
  | _ + 1, [] => []
  | fuel + 1, c :: cs =>
    match matchLabelAt (c :: cs) with
    | some (x, rest) => labelStr x ++ '\n' :: eqLabelSubAux fuel (rest.dropWhile isPySpace)
    | none => c :: eqLabelSubAux fuel cs

/-- The label rewrite at standard fuel. -/
def eqLabelSub (s : List Char) : List Char :=
  eqLabelSubAux (s.length + 1) s

/-- `eq_repl`: trim the equation body, rewrite label whitespace, wrap in a
display-math block with surrounding blank lines. -/
def eq_repl (g : List Char) : List Char :=
  ("\n\n$$\n".toList) ++ eqLabelSub (pyStrip g) ++ ("\n$$\n\n".toList)

/-- The literal `\begin{equation}` delimiter. -/
def beginEqTok : List Char := "\\begin\x7bequation\x7d".toList

/-- The literal `\end{equation}` delimiter. -/
def endEqTok : List Char := "\\end\x7bequation\x7d".toList

/-- Matcher for `\\begin\{equation\}(.*?)\\end\{equation\}` with DOTALL,
replaced by `eq_repl` of the group. -/
def matchEqAt (s : List Char) : Option (List Char × List Char) :=
  if beginEqTok.isPrefixOf s then
    match splitOnFirst endEqTok (s.drop beginEqTok.length) with
    | some (g, rest) => some (eq_repl g, rest)
    | none => none
  else none

/-- `replace_equations`. -/
def replace_equations (s : List Char) : List Char :=
  subAux matchEqAt (s.length + 1) s

/-- No position of `s` matches the label pattern. -/
def labelFree : List Char → Bool
  | [] => true
  | c :: cs => (matchLabelAt (c :: cs)).isNone && labelFree cs

/- ### Heading conversion (converters.py, lines 335-372) -/

/-- The sectioning commands with their heading depths, in the order of the
alternation of the pattern. -/
def headCmds : List (List Char × Nat) :=
  [(("section".toList), 1), (("subsection".toList), 2), (("subsubsection".toList), 3),
    (("paragraph".toList), 4), (("runningtitle".toList), 1)]

/-- Try the command-name alternation at `t` (the text after `\`). -/
def matchHeadCmd : List (List Char × Nat) → List Char → Option (Nat × List Char)
  | [], _ => none
  | (name, lvl) :: rest, t =>
    if name.isPrefixOf t then some (lvl, t.drop name.length)
    else matchHeadCmd rest t

/-- The optional star of `\*?`. -/
def dropStar : List Char → List Char
  | '*' :: u => u
  | u => u

/-- The replacement text of `sec_repl`. -/
def headMd (lvl : Nat) (title : List Char) (lab : Option (List Char)) : List Char :=
  ("\n\n".toList) ++ List.replicate lvl '#' ++ ' ' :: pyStrip title
    ++ (match lab with
        | some l => '\n' :: labelStr l
        | none => [])
    ++ ("\n\n".toList)

/-- Matcher for the heading pattern
`\\(section|subsection|subsubsection|paragraph|runningtitle)\*?\{(.*?)\}(?:\s*\\label\{([^}]+)\})?`
(DOTALL), returning the `sec_repl` replacement and the rest. -/
def matchHeadingAt (s : List Char) : Option (List Char × List Char) :=
  match s with
  | '\\' :: t =>
    match matchHeadCmd headCmds t with
    | some (lvl, u) =>
      match dropStar u with
      | '\x7b' :: v =>
        match breakRB v with
        | some (title, w) =>
          match matchLabelAt (w.dropWhile isPySpace) with
          | some (lab, rest) => some (headMd lvl title (some lab), rest)
          | none => some (headMd lvl title none, w)
        | none => none
      | _ => none
    | none => none
  | _ => none

/-- `replace_headings`. -/
def replace_headings (s : List Char) : List Char :=
  subAux matchHeadingAt (s.length + 1) s

/- ### Title insertion (converters.py, lines 35-63) -/

/-- `re.split(r'\\and|,', s)`. -/
def splitAndComma : List Char → List (List Char)
  | [] => [[]]
  | '\\' :: 'a' :: 'n' :: 'd' :: cs => [] :: splitAndComma cs
  | ',' :: cs => [] :: splitAndComma cs
  | c :: cs =>
    match splitAndComma cs with
    | p :: ps => (c :: p) :: ps
    | [] => [[c]]

/-- The authors line: split on `\and` or comma, trim, drop empties, join
with commas (converters.py, lines 57-59). -/
def authorsLine (authors : List Char) : List Char :=
  joinWith (", ".toList) (((splitAndComma authors).map pyStrip).filter (fun a => a ≠ []))

/-- `replace_maketitle`: build the replacement from title and authors and
substitute it for every `\maketitle`. -/
def replace_maketitle (text title authors : List Char) : List Char :=
  let rep :=
    (if title = [] then [] else ("# ".toList) ++ apply_inline_formats title ++ ("\n\n".toList))
      ++ (if authors = [] then []
          else ("**Authors:** ".toList) ++ authorsLine authors ++ ("\n\n".toList))
  replaceLit ("\\maketitle".toList) rep text

/- ### Comment and whitespace normalization (latex_processing.py,
lines 108-130) -/

/-- `re.sub(r'(?<!\\)%.*', '', s)`: delete from an unescaped `%` to the
end of the line.  The first argument is comment mode, the second the
previous character of the original text (the lookbehind). -/
def stripCommentsAux : Bool → Option Char → List Char → List Char
  | _, _, [] => []
  | true, _, c :: cs =>
    if c = '\n' then '\n' :: stripCommentsAux false (some '\n') cs
    else stripCommentsAux true (some c) cs
  | false, prev, c :: cs =>
    if c = '%' && prev ≠ some '\\' then stripCommentsAux true (some c) cs
    else c :: stripCommentsAux false (some c) cs

/-- `re.sub(r'\r\n', '\n', s)`. -/
def crlfToLF : List Char → List Char
  | [] => []
  | '\x0d' :: '\n' :: cs => '\n' :: crlfToLF cs
  | c :: cs => c :: crlfToLF cs

/-- `re.sub(r'\n{3,}', '\n\n', s)`, used both by `remove_comments` and by
`final_cleanup`: a run of k newlines is replaced by min(k, 2) newlines
(runs of one or two are untouched, longer runs become exactly two).  The
first argument counts the newlines of the current run that have already
been emitted: a newline is emitted only while that count is below 2. -/
def cnlAux : Nat → List Char → List Char
  | _, [] => []
  | r, c :: cs =>
    if c = '\n' then
      if r < 2 then '\n' :: cnlAux (r + 1) cs else cnlAux r cs
    else c :: cnlAux 0 cs

/-- Newline-run collapsing. -/
def collapseNewlines (s : List Char) : List Char :=
  cnlAux 0 s

/-- The paragraph-break sentinel of `remove_comments`. -/
def parBreakTok : List Char := "<<<PARA_BREAK>>>".toList

/-- `re.sub(r'\s+', ' ', s)`: every whitespace run becomes one space. -/
def wsRunsAux : Bool → List Char → List Char
  | _, [] => []
  | skipping, c :: cs =>
    if isPySpace c then
      if skipping then wsRunsAux true cs else ' ' :: wsRunsAux true cs
    else c :: wsRunsAux false cs

/-- `remove_comments`: comments stripped, line endings normalized, blank
lines collapsed, paragraph breaks protected by the sentinel while single
newlines are folded into spaces, whitespace runs collapsed, ends trimmed,
sentinel restored. -/
def remove_comments (s : List Char) : List Char :=
  let s1 := stripCommentsAux false none s
  let s2 := crlfToLF s1
  let s3 := collapseNewlines s2
  let s4 := replaceLit ("\n\n".toList) parBreakTok s3
  let s5 := s4.map (fun c => if c = '\n' then ' ' else c)
  let s6 := wsRunsAux false s5
  let s7 := pyStrip s6
  replaceLit parBreakTok ("\n\n".toList) s7

/- ### Helper lemmas about the scanners -/

theorem isPrefixOf_append_self (t u : List Char) : t.isPrefixOf (t ++ u) = true := by
  simp [List.isPrefixOf_iff_prefix]

theorem splitOnFirst_single (c0 : Char) (a b : List Char) (h : c0 ∉ a) :
    splitOnFirst [c0] (a ++ c0 :: b) = some (a, b) := by
  induction a with
  | nil =>
    show splitOnFirst [c0] (c0 :: b) = some ([], b)
    simp [splitOnFirst, List.isPrefixOf]
  | cons c a ih =>
    have hc : c0 ≠ c := by
      intro e
      exact h (by simp [e])
    have hna : c0 ∉ a := fun hm => h (List.mem_cons_of_mem _ hm)
    show splitOnFirst [c0] (c :: (a ++ c0 :: b)) = some (c :: a, b)
    rw [splitOnFirst, if_neg (by simp [List.isPrefixOf, hc]), ih hna]

theorem splitOnFirst_single_spec (c0 : Char) :
    ∀ (s a b : List Char), splitOnFirst [c0] s = some (a, b) → s = a ++ c0 :: b ∧ c0 ∉ a := by
  intro s
  induction s with
  | nil =>
    intro a b h
    simp [splitOnFirst] at h
  | cons c cs ih =>
    intro a b h
    rw [splitOnFirst] at h
    by_cases hp : ([c0].isPrefixOf (c :: cs)) = true
    · rw [if_pos hp] at h
      have hc : c0 = c := by
        simpa [List.isPrefixOf] using hp
      have h' : some (([] : List Char), cs) = some (a, b) := h
      obtain ⟨ha, hb⟩ : ([] : List Char) = a ∧ cs = b := by
        simpa using h'
      subst ha
      subst hb
      simp [hc]
    · rw [if_neg hp] at h
      have hc : ¬ c0 = c := by
        simpa [List.isPrefixOf] using hp
      cases e : splitOnFirst [c0] cs with
      | none =>
        rw [e] at h
        cases h
      | some ab =>
        obtain ⟨a', b'⟩ := ab
        rw [e] at h
        have h' : some (c :: a', b') = some (a, b) := h
        obtain ⟨ha, hb⟩ : c :: a' = a ∧ b' = b := by
          simpa using h'
        subst ha
        subst hb
        obtain ⟨h1, h2⟩ := ih a' b' e
        constructor
        · rw [h1, List.cons_append]
        · intro hm
          rcases List.mem_cons.mp hm with e1 | e2
          · exact hc e1
          · exact h2 e2

theorem labelStr_append (x r : List Char) :
    labelStr x ++ r = labelTok ++ (x ++ '\x7d' :: r) := by
  simp [labelStr]

theorem matchLabelAt_append (x r : List Char) (hx : x ≠ []) (hb : '\x7d' ∉ x) :
    matchLabelAt (labelStr x ++ r) = some (x, r) := by
  unfold matchLabelAt
  rw [labelStr_append, if_pos (isPrefixOf_append_self _ _), List.drop_left]
  unfold breakRB
  rw [splitOnFirst_single _ _ _ hb]
  simp [hx]

theorem matchLabelAt_spec (s x rest : List Char) (h : matchLabelAt s = some (x, rest)) :
    s = labelStr x ++ rest ∧ x ≠ [] ∧ '\x7d' ∉ x := by
  unfold matchLabelAt at h
  by_cases hp : (labelTok.isPrefixOf s) = true
  · rw [if_pos hp] at h
    obtain ⟨t, ht⟩ : ∃ t, labelTok ++ t = s := List.isPrefixOf_iff_prefix.mp hp
    rw [← ht, List.drop_left] at h
    cases e : breakRB t with
    | none =>
      rw [e] at h
      cases h
    | some ab =>
      obtain ⟨a, b⟩ := ab
      rw [e] at h
      have h' : (if a = [] then none else some (a, b)) = some (x, rest) := h
      by_cases ha : a = []
      · rw [if_pos ha] at h'
        cases h'
      · rw [if_neg ha] at h'
        obtain ⟨hax, hbrest⟩ : a = x ∧ b = rest := by simpa using h'
        subst hax
        subst hbrest
        obtain ⟨hta, htb⟩ := splitOnFirst_single_spec '\x7d' t a b e
        exact ⟨by rw [← ht, hta, labelStr_append], ha, htb⟩
  · rw [if_neg hp] at h
    cases h

theorem eqLabelSubAux_id (b : List Char) (h : labelFree b = true) :
    ∀ fuel, eqLabelSubAux fuel b = b := by
  induction b with
  | nil =>
    intro fuel
    cases fuel <;> rfl
  | cons c cs ih =>
    intro fuel
    rw [labelFree, Bool.and_eq_true, Option.isNone_iff_eq_none] at h
    cases fuel with
    | zero => rfl
    | succ f => simp [eqLabelSubAux, h.1, ih h.2]

theorem trimLeft_eq_self (b : List Char)
    (hh : ∀ c, b.head? = some c → isPySpace c = false) : trimLeft b = b := by
  cases b with
  | nil => rfl
  | cons c cs =>
    have hc := hh c rfl
    simp [trimLeft, List.dropWhile_cons, hc]

theorem trimRight_eq_self (b : List Char)
    (hl : ∀ c, b.getLast? = some c → isPySpace c = false) : trimRight b = b := by
  unfold trimRight
  cases hr : b.reverse with
  | nil =>
    have : b = [] := by simpa using congrArg List.reverse hr
    simp [this]
  | cons c cs =>
    have hc : b.getLast? = some c := by
      rw [← List.head?_reverse, hr]
      rfl
    have hs := hl c hc
    rw [List.dropWhile_cons_of_neg (by simp [hs]), ← hr, List.reverse_reverse]

theorem trimRight_append (a b : List Char) (hb : trimRight b = b) (hne : b ≠ []) :
    trimRight (a ++ b) = a ++ b := by
  have hb' : b.reverse.dropWhile isPySpace = b.reverse := by
    have := congrArg List.reverse hb
    simpa [trimRight] using this
  unfold trimRight
  rw [List.reverse_append, List.dropWhile_append, hb']
  have hne' : b.reverse.isEmpty = false := by
    simp [hne]
  simp [hne']

theorem pyStrip_eq_self (b : List Char)
    (hh : ∀ c, b.head? = some c → isPySpace c = false)
    (hl : ∀ c, b.getLast? = some c → isPySpace c = false) : pyStrip b = b := by
  rw [pyStrip, trimLeft_eq_self b hh, trimRight_eq_self b hl]

theorem pyStrip_label_inner (x b : List Char) (hne : b ≠ [])
    (hl : ∀ c, b.getLast? = some c → isPySpace c = false) :
    pyStrip (labelStr x ++ ' ' :: b) = labelStr x ++ ' ' :: b := by
  have h1 : trimLeft (labelStr x ++ ' ' :: b) = labelStr x ++ ' ' :: b := by
    rw [labelStr_append]
    have hc : isPySpace '\\' = false := rfl
    simp [labelTok, trimLeft, List.dropWhile_cons, hc]
  have h2 : labelStr x ++ ' ' :: b = (labelStr x ++ [' ']) ++ b := by
    simp
  rw [pyStrip, h1, h2, trimRight_append _ b (trimRight_eq_self b hl) hne, ← h2]

theorem eqLabelSubAux_label_head (fuel : Nat) (x r : List Char)
    (hx : x ≠ []) (hb : '\x7d' ∉ x) :
    eqLabelSubAux (fuel + 1) (labelStr x ++ r) =
      labelStr x ++ '\n' :: eqLabelSubAux fuel (r.dropWhile isPySpace) := by
  have hm := matchLabelAt_append x r hx hb
  rw [labelStr_append] at hm ⊢
  simp only [labelTok, List.cons_append, List.nil_append] at hm ⊢
  rw [eqLabelSubAux, hm]

/-- C7, counterexample: on the equation `\begin{equation}E \label{l}\end{equation}`
the converter leaves the label marker after the body `E` (first conjunct is
the actual output) instead of moving it onto its own line immediately
before the body (the output does not contain the label followed by the
body, second conjunct). -/
theorem equation_label_not_moved :
    replace_equations (("\\begin\x7bequation\x7dE \\label\x7bl\x7d\\end\x7bequation\x7d").toList) =
        ("\n\n$$\nE \\label\x7bl\x7d\n\n$$\n\n").toList ∧
      containsSub (("\\label\x7bl\x7d\nE").toList)
        (("\n\n$$\nE \\label\x7bl\x7d\n\n$$\n\n").toList) = false := by
  exact ⟨by decide, by decide⟩

/-- C7, amended: the equation converter wraps the trimmed body in `$$`
delimiters with surrounding blank lines and inserts a newline after each
label marker (consuming the whitespace that follows it) — so a label at
the start of the equation ends on its own line before the body — and
applies no other rewriting: a label-free body passes through
byte-for-byte (second conjunct). -/
theorem equation_converter_amended (x b : List Char)
    (hx : x ≠ []) (hbx : '\x7d' ∉ x) (hfree : labelFree b = true) (hne : b ≠ [])
    (hh : ∀ c, b.head? = some c → isPySpace c = false)
    (hl : ∀ c, b.getLast? = some c → isPySpace c = false) :
    eq_repl (labelStr x ++ ' ' :: b) =
        ("\n\n$$\n".toList) ++ labelStr x ++ '\n' :: b ++ ("\n$$\n\n".toList) ∧
      eq_repl b = ("\n\n$$\n".toList) ++ b ++ ("\n$$\n\n".toList) := by
  constructor
  · unfold eq_repl eqLabelSub
    rw [pyStrip_label_inner x b hne hl,
      eqLabelSubAux_label_head _ x (' ' :: b) hx hbx]
    have hdw : (' ' :: b).dropWhile isPySpace = b := by
      rw [List.dropWhile_cons_of_pos (by rfl)]
      simpa [trimLeft] using trimLeft_eq_self b hh
    rw [hdw, eqLabelSubAux_id b hfree]
    simp
  · unfold eq_repl eqLabelSub
    rw [pyStrip_eq_self b hh hl, eqLabelSubAux_id b hfree]

/-- Witness for the amended C7 theorem on `\label{l} E=mc^2`. -/
theorem equation_converter_amended_witness :
    eq_repl (labelStr ("l".toList) ++ ' ' :: ("E=mc^2".toList)) =
        ("\n\n$$\n".toList) ++ labelStr ("l".toList) ++ '\n' :: ("E=mc^2".toList)
          ++ ("\n$$\n\n".toList) ∧
      eq_repl ("E=mc^2".toList) =
        ("\n\n$$\n".toList) ++ ("E=mc^2".toList) ++ ("\n$$\n\n".toList) :=
  equation_converter_amended ("l".toList) ("E=mc^2".toList) (by decide) (by decide)
    (by decide) (by decide)
    (by intro c hc; rw [← Option.some.inj hc]; decide)
    (by intro c hc; rw [← Option.some.inj hc]; decide)

/-- C8: the heading converter maps section to depth 1, subsection to 2,
subsubsection to 3, paragraph to 4 and runningtitle to 1, starred or not,
and `\section{Intro}\label{sec:intro}` becomes the level-1 heading
`# Intro` with the label marker on the following line. -/
theorem headings_map_levels :
    replace_headings (("\\section\x7bT\x7d").toList) = ("\n\n# T\n\n").toList ∧
      replace_headings (("\\section*\x7bT\x7d").toList) = ("\n\n# T\n\n").toList ∧
      replace_headings (("\\subsection\x7bT\x7d").toList) = ("\n\n## T\n\n").toList ∧
      replace_headings (("\\subsection*\x7bT\x7d").toList) = ("\n\n## T\n\n").toList ∧
      replace_headings (("\\subsubsection\x7bT\x7d").toList) = ("\n\n### T\n\n").toList ∧
      replace_headings (("\\subsubsection*\x7bT\x7d").toList) = ("\n\n### T\n\n").toList ∧
      replace_headings (("\\paragraph\x7bT\x7d").toList) = ("\n\n#### T\n\n").toList ∧
      replace_headings (("\\paragraph*\x7bT\x7d").toList) = ("\n\n#### T\n\n").toList ∧
      replace_headings (("\\runningtitle\x7bT\x7d").toList) = ("\n\n# T\n\n").toList ∧
      replace_headings (("\\runningtitle*\x7bT\x7d").toList) = ("\n\n# T\n\n").toList ∧
      replace_headings (("\\section\x7bIntro\x7d\\label\x7bsec:intro\x7d").toList) =
        ("\n\n# Intro\n\\label\x7bsec:intro\x7d\n\n").toList := by
  exact ⟨by decide, by decide, by decide, by decide, by decide, by decide, by decide,
    by decide, by decide, by decide, by decide⟩

/-- C9: the authors line splits the raw field on `\and` or comma, trims
each piece, drops empty pieces and joins with commas; `A \and B, C`
renders as `A, B, C`, and the full maketitle replacement embeds it after
the bold Authors marker. -/
theorem authors_split_join :
    authorsLine (("A \\and B, C").toList) = ("A, B, C").toList ∧
      authorsLine ((" X \\and\\and Y ").toList) = ("X, Y").toList ∧
      replace_maketitle (("pre \\maketitle post").toList) (("T").toList)
        (("A \\and B, C").toList) =
        ("pre # T\n\n**Authors:** A, B, C\n\n post").toList := by
  exact ⟨by decide, by decide, by decide⟩

/- ### The paragraph-break sentinel (C10) -/

theorem splitOnFirst_sound (pat : List Char) :
    ∀ s a b, splitOnFirst pat s = some (a, b) → s = a ++ pat ++ b := by
  intro s
  induction s with
  | nil =>
    intro a b h
    simp only [splitOnFirst] at h
    by_cases hp : pat = ([] : List Char)
    · rw [if_pos hp, Option.some.injEq, Prod.mk.injEq] at h
      rw [← h.1, ← h.2, hp]
      rfl
    · rw [if_neg hp] at h
      simp at h
  | cons c cs ih =>
    intro a b h
    simp only [splitOnFirst] at h
    by_cases hp : pat.isPrefixOf (c :: cs) = true
    · rw [if_pos hp, Option.some.injEq, Prod.mk.injEq] at h
      obtain ⟨t, ht⟩ := List.isPrefixOf_iff_prefix.mp hp
      rw [← h.1, ← h.2, List.nil_append, ← ht, List.drop_left]
    · rw [if_neg hp] at h
      cases hsp : splitOnFirst pat cs with
      | none => rw [hsp] at h; simp at h
      | some p =>
        obtain ⟨a1, b1⟩ := p
        rw [hsp, Option.some.injEq, Prod.mk.injEq] at h
        rw [← h.1, ← h.2, ih a1 b1 hsp]
        rfl

theorem occ_of_containsSub (pat s : List Char)
    (h : containsSub pat s = true) : pat <:+: s := by
  rw [containsSub] at h
  cases hsp : splitOnFirst pat s with
  | none => rw [hsp] at h; simp at h
  | some p =>
    obtain ⟨a, b⟩ := p
    exact ⟨a, b, (splitOnFirst_sound pat s a b hsp).symm⟩

theorem containsSub_of_occ (pat : List Char) :
    ∀ s, pat <:+: s → containsSub pat s = true := by
  intro s
  induction s with
  | nil =>
    intro h
    have hp : pat = [] := by
      obtain ⟨u, v, huv⟩ := h
      have h1 := List.append_eq_nil.mp huv
      exact ( List.append_eq_nil.mp h1.1).2
    rw [containsSub, hp]
    decide
  | cons c cs ih =>
    intro h
    rw [containsSub]
    simp only [splitOnFirst]
    by_cases hp : pat.isPrefixOf (c :: cs) = true
    · rw [if_pos hp]
      rfl
    · have h1 : pat <:+: cs := by
        obtain ⟨u, v, huv⟩ := h
        cases u with
        | nil =>
          exfalso
          apply hp
          rw [List.isPrefixOf_iff_prefix]
          exact ⟨v, by simpa using huv⟩
        | cons d u1 =>
          simp only [List.cons_append] at huv
          refine ⟨u1, v, ?_⟩
          injection huv with h2 h3
      have h2 := ih h1
      rw [containsSub] at h2
      rw [if_neg hp]
      cases hsp : splitOnFirst pat cs with
      | none => rw [hsp] at h2; simp at h2
      | some p =>
        obtain ⟨a1, b1⟩ := p
        rfl

theorem subAux_lit_occ (pat rep : List Char) (hne : pat ≠ []) :
    ∀ fuel s, s.length < fuel → pat <:+: s →
      rep <:+: subAux (litMatcher pat rep) fuel s := by
  intro fuel
  induction fuel with
  | zero =>
    intro s hlen _
    exact absurd hlen (by omega)
  | succ fuel ih =>
    intro s hlen hocc
    cases s with
    | nil =>
      exfalso
      obtain ⟨u, v, huv⟩ := hocc
      have h1 := List.append_eq_nil.mp huv
      exact hne ( List.append_eq_nil.mp h1.1).2
    | cons c cs =>
      by_cases hp : pat.isPrefixOf (c :: cs) = true
      · have he : subAux (litMatcher pat rep) (fuel + 1) (c :: cs) =
            rep ++ subAux (litMatcher pat rep) fuel ((c :: cs).drop pat.length) := by
          simp only [subAux, litMatcher, if_pos hp]
        rw [he]
        exact ( List.prefix_append rep _).isInfix
      · have he : subAux (litMatcher pat rep) (fuel + 1) (c :: cs) =
            c :: subAux (litMatcher pat rep) fuel cs := by
          simp only [subAux, litMatcher, if_neg hp]
        rw [he]
        have h1 : pat <:+: cs := by
          obtain ⟨u, v, huv⟩ := hocc
          cases u with
          | nil =>
            exfalso
            apply hp
            rw [List.isPrefixOf_iff_prefix]
            exact ⟨v, by simpa using huv⟩
          | cons d u1 =>
            simp only [List.cons_append] at huv
            refine ⟨u1, v, ?_⟩
            injection huv with h2 h3
        have h2 : cs.length < fuel := by
          simp only [List.length_cons] at hlen
          omega
        exact List.infix_cons (ih cs h2 h1)

theorem subAux_lit_id (pat rep : List Char) :
    ∀ fuel s, ¬ pat <:+: s → subAux (litMatcher pat rep) fuel s = s := by
  intro fuel
  induction fuel with
  | zero => intro s _; rfl
  | succ fuel ih =>
    intro s hocc
    cases s with
    | nil => rfl
    | cons c cs =>
      by_cases hp : pat.isPrefixOf (c :: cs) = true
      · exact absurd ( List.isPrefixOf_iff_prefix.mp hp).isInfix hocc
      · have he : subAux (litMatcher pat rep) (fuel + 1) (c :: cs) =
            c :: subAux (litMatcher pat rep) fuel cs := by
          simp only [subAux, litMatcher, if_neg hp]
        rw [he, ih cs (fun h1 => hocc ( List.infix_cons h1))]

theorem wsRunsAux_reaches (t : List Char) :
    ∀ (u : List Char) (b : Bool), ∃ w b2,
      wsRunsAux b (u ++ t) = w ++ wsRunsAux b2 t := by
  intro u
  induction u with
  | nil => intro b; exact ⟨[], b, rfl⟩
  | cons c u1 ih =>
    intro b
    by_cases hc : isPySpace c = true
    · cases b with
      | false =>
        obtain ⟨w, b2, hw⟩ := ih true
        refine ⟨' ' :: w, b2, ?_⟩
        rw [List.cons_append]
        rw [show wsRunsAux false (c :: (u1 ++ t)) = ' ' :: wsRunsAux true (u1 ++ t) by
          simp [wsRunsAux, hc]]
        rw [hw]
        rfl
      | true =>
        obtain ⟨w, b2, hw⟩ := ih true
        refine ⟨w, b2, ?_⟩
        rw [List.cons_append]
        rw [show wsRunsAux true (c :: (u1 ++ t)) = wsRunsAux true (u1 ++ t) by
          simp [wsRunsAux, hc]]
        exact hw
    · obtain ⟨w, b2, hw⟩ := ih false
      refine ⟨c :: w, b2, ?_⟩
      rw [List.cons_append]
      rw [show wsRunsAux b (c :: (u1 ++ t)) = c :: wsRunsAux false (u1 ++ t) by
        simp [wsRunsAux, hc]]
      rw [hw]
      rfl

theorem wsRunsAux_tok (v : List Char) (b : Bool) :
    wsRunsAux b (parBreakTok ++ v) = parBreakTok ++ wsRunsAux false v := by
  cases b <;> rfl

theorem dropWhile_keeps_occ (p : Char → Bool) (q s : List Char)
    (hq : ∀ a, q.head? = some a → p a = false) (h : q <:+: s) :
    q <:+: s.dropWhile p := by
  obtain ⟨u, v, huv⟩ := h
  rw [← huv, List.append_assoc, List.dropWhile_append]
  by_cases he : (u.dropWhile p).isEmpty = true
  · rw [if_pos he]
    cases q with
    | nil => exact ⟨[], ( [] ++ v).dropWhile p, by simp⟩
    | cons a q1 =>
      have hpa : p a = false := hq a rfl
      have hd : ((a :: q1) ++ v).dropWhile p = (a :: q1) ++ v := by
        rw [List.cons_append, List.dropWhile_cons_of_neg (by simp [hpa])]
      rw [hd]
      exact ⟨[], v, by simp⟩
  · rw [if_neg he]
    exact ⟨u.dropWhile p, v, List.append_assoc _ _ _⟩

theorem pyStrip_keeps_tok (s : List Char) (h : parBreakTok <:+: s) :
    parBreakTok <:+: pyStrip s := by
  have h1 : parBreakTok <:+: s.dropWhile isPySpace :=
    dropWhile_keeps_occ isPySpace parBreakTok s
      (by intro a ha
          have ha2 : (some '<' : Option Char) = some a := ha
          rw [← Option.some.inj ha2]
          decide) h
  have h2 : parBreakTok.reverse <:+: (s.dropWhile isPySpace).reverse :=
    List.reverse_infix.mpr h1
  have h3 : parBreakTok.reverse <:+:
      (s.dropWhile isPySpace).reverse.dropWhile isPySpace :=
    dropWhile_keeps_occ isPySpace parBreakTok.reverse ((s.dropWhile isPySpace).reverse)
      (by intro a ha
          have ha2 : (some '>' : Option Char) = some a := ha
          rw [← Option.some.inj ha2]
          decide) h2
  rw [pyStrip, trimRight, trimLeft]
  apply List.reverse_infix.mp
  rw [ List.reverse_reverse]
  exact h3

theorem map_keeps_tok (f : Char → Char) (s : List Char)
    (hf : parBreakTok.map f = parBreakTok) (h : parBreakTok <:+: s) :
    parBreakTok <:+: s.map f := by
  obtain ⟨u, v, huv⟩ := h
  refine ⟨u.map f, v.map f, ?_⟩
  rw [← huv, List.map_append, List.map_append, hf]

theorem remove_comments_eq (s : List Char) :
    remove_comments s =
      replaceLit parBreakTok (("\n\n").toList)
        (pyStrip (wsRunsAux false
          ((replaceLit (("\n\n").toList) parBreakTok
            (collapseNewlines (crlfToLF (stripCommentsAux false none s)))).map
            (fun c => if c = '\n' then ' ' else c)))) := rfl

/-- C10: counterexample to the claim that every input containing the
literal sentinel `<<<PARA_BREAK>>>` has it rewritten into a paragraph
break by the comment/whitespace normalizer: here the sentinel sits
inside a LaTeX comment, the comment stripper deletes it together with
the rest of the line, and the output is plain `x` with no paragraph
break at all. -/
theorem sentinel_in_comment_deleted :
    containsSub parBreakTok (("x%<<<PARA_BREAK>>>y").toList) = true ∧
      remove_comments (("x%<<<PARA_BREAK>>>y").toList) = ("x").toList ∧
      containsSub (("\n\n").toList)
        (remove_comments (("x%<<<PARA_BREAK>>>y").toList)) = false := by
  exact ⟨by decide, by decide, by decide⟩

/-- C10 (amended): the sentinel is not collision-safe.  For every input
in which the literal `<<<PARA_BREAK>>>` survives to the sentinel
substitution — that is, it still occurs after comment stripping,
line-ending normalization and newline-run collapsing, as it does in any
comment-free input containing it — the normalizer's output contains a
paragraph break (two newlines) produced from it, so such text is not
preserved verbatim.  A sentinel inside a comment is instead deleted with
the comment (see the counterexample). -/
theorem sentinel_collision_amended (s : List Char)
    (h : containsSub parBreakTok
      (collapseNewlines (crlfToLF (stripCommentsAux false none s))) = true) :
    containsSub (("\n\n").toList) (remove_comments s) = true := by
  have h0 : parBreakTok <:+:
      collapseNewlines (crlfToLF (stripCommentsAux false none s)) :=
    occ_of_containsSub parBreakTok _ h
  have h4 : parBreakTok <:+:
      replaceLit (("\n\n").toList) parBreakTok
        (collapseNewlines (crlfToLF (stripCommentsAux false none s))) := by
    by_cases hnn : ("\n\n").toList <:+:
        collapseNewlines (crlfToLF (stripCommentsAux false none s))
    · rw [replaceLit]
      exact subAux_lit_occ (("\n\n").toList) parBreakTok (by decide) _ _
        (Nat.lt_succ_self _) hnn
    · rw [replaceLit, subAux_lit_id _ _ _ _ hnn]
      exact h0
  have h5 : parBreakTok <:+:
      (replaceLit (("\n\n").toList) parBreakTok
        (collapseNewlines (crlfToLF (stripCommentsAux false none s)))).map
        (fun c => if c = '\n' then ' ' else c) :=
    map_keeps_tok _ _ (by decide) h4
  have h6 : parBreakTok <:+:
      wsRunsAux false ((replaceLit (("\n\n").toList) parBreakTok
        (collapseNewlines (crlfToLF (stripCommentsAux false none s)))).map
        (fun c => if c = '\n' then ' ' else c)) := by
    obtain ⟨u, v, huv⟩ := h5
    obtain ⟨w, b2, hw⟩ := wsRunsAux_reaches (parBreakTok ++ v) u false
    rw [← huv, List.append_assoc, hw, wsRunsAux_tok]
    exact ⟨w, wsRunsAux false v, List.append_assoc _ _ _⟩
  have h7 := pyStrip_keeps_tok _ h6
  have h8 : ("\n\n").toList <:+: remove_comments s := by
    rw [remove_comments_eq, replaceLit]
    exact subAux_lit_occ parBreakTok (("\n\n").toList) (by decide) _ _
      (Nat.lt_succ_self _) h7
  exact containsSub_of_occ (("\n\n").toList) _ h8

/-- Witness for the amended C10 theorem at a concrete comment-free
input: the sentinel of `a<<<PARA_BREAK>>>b` survives the early stages,
and the output indeed contains a paragraph break. -/
theorem sentinel_collision_amended_witness :
    containsSub parBreakTok
        (collapseNewlines (crlfToLF (stripCommentsAux false none
          (("a<<<PARA_BREAK>>>b").toList)))) = true ∧
      containsSub (("\n\n").toList)
        (remove_comments (("a<<<PARA_BREAK>>>b").toList)) = true :=
  ⟨by decide, sentinel_collision_amended (("a<<<PARA_BREAK>>>b").toList) (by decide)⟩

/- ### Label preservation (C5) -/

theorem rbrace_mem_labelStr (x : List Char) : '\x7d' ∈ labelStr x := by
  simp [labelStr]

theorem rbrace_not_mem_labelTok : '\x7d' ∉ labelTok := by decide

theorem rbrace_not_mem_noBr (y : List Char) (hy : '\x7d' ∉ y) :
    '\x7d' ∉ labelTok ++ y := by
  intro hm
  rcases List.mem_append.mp hm with h1 | h2
  · exact rbrace_not_mem_labelTok h1
  · exact hy h2

theorem getLast?_append_right (u w : List Char) (hw : w ≠ []) :
    (u ++ w).getLast? = w.getLast? := by
  rw [List.getLast?_append]
  obtain ⟨a, ha⟩ := Option.isSome_iff_exists.mp (List.getLast?_isSome.mpr hw)
  simp [ha]

theorem labelStr_getLast? (x : List Char) : (labelStr x).getLast? = some '\x7d' := by
  have : labelStr x = (labelTok ++ x) ++ ['\x7d'] := by simp [labelStr]
  rw [this, getLast?_append_right _ _ (by simp)]
  rfl

theorem findLabelsAux_label_head (f : Nat) (x v : List Char)
    (hx : x ≠ []) (hbx : '\x7d' ∉ x) :
    findLabelsAux (f + 1) (labelStr x ++ v) = x :: findLabelsAux f v := by
  have hm := matchLabelAt_append x v hx hbx
  rw [labelStr_append] at hm ⊢
  simp only [labelTok, List.cons_append, List.nil_append] at hm ⊢
  rw [findLabelsAux, hm]

theorem findLabelsAux_complete :
    ∀ (fuel : Nat) (s u x v : List Char), s.length < fuel →
      s = u ++ (labelStr x ++ v) → x ≠ [] → '\x7d' ∉ x →
      ∃ y ∈ findLabelsAux fuel s, labelStr x <:+ labelStr y := by
  intro fuel
  induction fuel with
  | zero =>
    intro s u x v h
    omega
  | succ f ih =>
    intro s u x v hlen hs hx hbx
    cases u with
    | nil =>
      rw [List.nil_append] at hs
      subst hs
      rw [findLabelsAux_label_head f x v hx hbx]
      exact ⟨x, List.mem_cons_self _ _, List.suffix_refl _⟩
    | cons c u' =>
      have hs' : s = c :: (u' ++ (labelStr x ++ v)) := by simpa using hs
      subst hs'
      cases hm : matchLabelAt (c :: (u' ++ (labelStr x ++ v))) with
      | none =>
        rw [findLabelsAux, hm]
        have hlen' : (u' ++ (labelStr x ++ v)).length < f := by
          have h := hlen
          rw [List.length_cons] at h
          omega
        exact ih _ u' x v hlen' rfl hx hbx
      | some p =>
        obtain ⟨y, rest⟩ := p
        rw [findLabelsAux, hm]
        obtain ⟨hspec, hy, hby⟩ := matchLabelAt_spec _ y rest hm
        -- hspec : c :: (u' ++ (labelStr x ++ v)) = labelStr y ++ rest
        have hE : labelStr y ++ rest = (c :: u') ++ (labelStr x ++ v) := by
          rw [← hspec]
          simp
        have hrest_len : rest.length < f := by
          have h9 : (labelStr y).length = y.length + 8 := by
            simp only [labelStr, labelTok, List.length_append, List.length_cons,
              List.length_nil]
            omega
          have hlc := congrArg List.length hE
          simp only [List.length_append, List.length_cons, h9] at hlc
          have hlen2 : (u' ++ (labelStr x ++ v)).length + 1 < f + 1 := by
            simpa using hlen
          simp only [List.length_append] at hlen2 hlc
          omega
        rcases List.append_eq_append_iff.mp hE with ⟨w, hw1, hw2⟩ | ⟨w, hw1, hw2⟩
        · -- (c :: u') = labelStr y ++ w, rest = w ++ (labelStr x ++ v)
          obtain ⟨z, hz, hsuf⟩ := ih rest w x v hrest_len hw2 hx hbx
          exact ⟨z, List.mem_cons_of_mem _ hz, hsuf⟩
        · -- labelStr y = (c :: u') ++ w, labelStr x ++ v = w ++ rest
          cases hwn : w with
          | nil =>
            subst hwn
            rw [List.nil_append] at hw2
            obtain ⟨z, hz, hsuf⟩ := ih rest [] x v hrest_len (by rw [hw2]; rfl) hx hbx
            exact ⟨z, List.mem_cons_of_mem _ hz, hsuf⟩
          | cons w0 w' =>
            have hwne : w ≠ [] := by rw [hwn]; simp
            rw [← hwn] at *
            rcases List.append_eq_append_iff.mp hw2 with ⟨a2, ha1, ha2⟩ | ⟨w2, hb1, hb2⟩
            · -- w = labelStr x ++ a2, v = a2 ++ rest
              cases han : a2 with
              | nil =>
                subst han
                rw [List.append_nil] at ha1
                refine ⟨y, List.mem_cons_self _ _, ⟨c :: u', ?_⟩⟩
                rw [← ha1, ← hw1]
              | cons a0 a' =>
                exfalso
                rcases List.eq_nil_or_concat' a2 with h0 | ⟨L, t, hLt⟩
                · rw [han] at h0; cases h0
                · have hyalt : labelStr y = (labelTok ++ y) ++ ['\x7d'] := by
                    simp [labelStr]
                  have hcat : (labelTok ++ y) ++ ['\x7d'] = ((c :: u') ++ labelStr x ++ L) ++ [t] := by
                    rw [← hyalt, hw1, ha1, hLt]
                    simp
                  have heq : labelTok ++ y = (c :: u') ++ labelStr x ++ L :=
                    List.append_inj_left' hcat rfl
                  have hmem : '\x7d' ∈ labelTok ++ y := by
                    rw [heq]
                    have hz : '\x7d' ∈ labelStr x := rbrace_mem_labelStr x
                    simp [hz]
                  exact rbrace_not_mem_noBr y hby hmem
            · -- labelStr x = w ++ w2, rest = w2 ++ v
              cases hw2n : w2 with
              | nil =>
                subst hw2n
                rw [List.append_nil] at hb1
                refine ⟨y, List.mem_cons_self _ _, ⟨c :: u', ?_⟩⟩
                rw [hb1, ← hw1]
              | cons q0 q' =>
                exfalso
                -- w ≠ [], w2 ≠ []: getLast w = '}' yet w is a prefix of labelTok ++ x
                have hw2ne : w2 ≠ [] := by rw [hw2n]; simp
                rw [← hw2n] at *
                have hylast : (labelStr y).getLast? = some '\x7d' := labelStr_getLast? y
                have hwlast : w.getLast? = some '\x7d' := by
                  rw [hw1, getLast?_append_right _ _ hwne] at hylast
                  exact hylast
                rcases List.eq_nil_or_concat' w2 with h0 | ⟨L, t, hLt⟩
                · exact hw2ne h0
                · have hxalt : labelStr x = (labelTok ++ x) ++ ['\x7d'] := by
                    simp [labelStr]
                  have hxcat : (labelTok ++ x) ++ ['\x7d'] = (w ++ L) ++ [t] := by
                    rw [← hxalt, hb1, hLt]
                    simp
                  have hpre : labelTok ++ x = w ++ L :=
                    List.append_inj_left' hxcat rfl
                  have hmem : '\x7d' ∈ labelTok ++ x := by
                    rw [hpre]
                    have hz : '\x7d' ∈ w := List.mem_of_getLast?_eq_some hwlast
                    simp [hz]
                  exact rbrace_not_mem_noBr x hbx hmem



theorem infix_ext_right (x m post : List Char) (h : x <:+: m) : x <:+: m ++ post := by
  obtain ⟨a, b, hab⟩ := h
  exact ⟨a, b ++ post, by rw [← hab]; simp⟩

theorem infix_ext_left (x m pre : List Char) (h : x <:+: m) : x <:+: pre ++ m := by
  obtain ⟨a, b, hab⟩ := h
  exact ⟨pre ++ a, b, by rw [← hab]; simp⟩

theorem mem_joinWith_sub (sep : List Char) :
    ∀ (l : List (List Char)) (a : List Char), a ∈ l → a <:+: joinWith sep l := by
  intro l
  induction l with
  | nil =>
    intro a ha
    cases ha
  | cons b bs ih =>
    intro a ha
    rcases List.mem_cons.mp ha with rfl | hm
    · cases bs with
      | nil => exact ⟨[], [], by simp [joinWith]⟩
      | cons c cs => exact ⟨[], sep ++ joinWith sep (c :: cs), by simp [joinWith]⟩
    · cases bs with
      | nil => cases hm
      | cons c cs =>
        obtain ⟨s, t, hst⟩ := ih a hm
        exact ⟨b ++ sep ++ s, t, by rw [joinWith, ← hst]; simp⟩

theorem labelStr_infix_figure (s y : List Char) (hy : y ∈ findLabels s) :
    labelStr y <:+: figure_repl s := by
  have h1 : (' ' :: labelStr y) ∈ (findLabels s).map (fun l => ' ' :: labelStr l) :=
    List.mem_map_of_mem _ hy
  have h3 : labelStr y <:+: (' ' :: labelStr y) := ⟨[' '], [], by simp⟩
  have h4 : labelStr y <:+: joinWith [] ((findLabels s).map (fun l => ' ' :: labelStr l)) :=
    h3.trans (mem_joinWith_sub [] _ _ h1)
  show labelStr y <:+:
    ("\n\n**Figure:** ".toList)
      ++ apply_inline_formats (pyStrip (joinWith [' '] (extractCaptions s)))
      ++ joinWith [] ((findLabels s).map (fun l => ' ' :: labelStr l))
      ++ ("\n\n".toList)
  exact infix_ext_right _ _ _ (infix_ext_left _ _ _ h4)

theorem labelStr_infix_table (s y out : List Char) (hy : y ∈ findLabels s)
    (hout : table_repl s = some out) : labelStr y <:+: out := by
  have hls : labelStr y <:+: joinWith [' '] ((findLabels s).map labelStr) :=
    mem_joinWith_sub [' '] _ _ (List.mem_map_of_mem _ hy)
  unfold table_repl at hout
  cases hc : convert_tabular_to_markdown s with
  | none =>
    rw [hc] at hout
    cases hout
  | some o =>
    rw [hc] at hout
    cases o with
    | none =>
      have h := Option.some.inj hout
      rw [← h]
      exact infix_ext_right _ _ _ (infix_ext_right _ _ _ (infix_ext_right _ _ _
        (infix_ext_left _ _ _ hls)))
    | some md =>
      by_cases hmd : md = []
      · subst hmd
        have h := Option.some.inj hout
        rw [← h]
        exact infix_ext_right _ _ _ (infix_ext_right _ _ _ (infix_ext_right _ _ _
          (infix_ext_left _ _ _ hls)))
      · simp only [if_neg hmd] at hout
        have h := Option.some.inj hout
        rw [← h]
        exact infix_ext_right _ _ _ (infix_ext_right _ _ _ (infix_ext_right _ _ _
          (infix_ext_left _ _ _ hls)))

/-- C5: every label marker occurring in a figure or table environment's
source appears verbatim in the corresponding output block: in the figure
replacement always, and in the table replacement whenever the conversion
returns (it does not return when the scale-wrapping loop diverges),
whichever of the three table branches (nested fallback, empty fallback,
Markdown table) produced the output. -/
theorem label_preservation (s u x v : List Char)
    (hs : s = u ++ (labelStr x ++ v)) (hx : x ≠ []) (hbx : '\x7d' ∉ x) :
    (labelStr x <:+: figure_repl s) ∧
      ∀ out, table_repl s = some out → labelStr x <:+: out := by
  obtain ⟨y, hy, hsuf⟩ :=
    findLabelsAux_complete (s.length + 1) s u x v (by omega) hs hx hbx
  have hinf : labelStr x <:+: labelStr y := hsuf.isInfix
  constructor
  · exact hinf.trans (labelStr_infix_figure s y hy)
  · intro out hout
    exact hinf.trans (labelStr_infix_table s y out hy hout)



/-- Witness for C5 at a concrete figure inner text and a concrete table
environment. -/
theorem label_preservation_witness :
    (labelStr (("fig:a").toList) <:+: figure_repl (("A \\label\x7bfig:a\x7d B").toList)) ∧
      labelStr (("l").toList) <:+:
        (("\n\n**Table:** t \\label\x7bl\x7d\n\n```latex\n\\begin\x7btabular\x7d\x7bc\x7da\\begin\x7btabular\x7d\x7bc\x7dx\\end\x7btabular\x7d\n```\n\n").toList) :=
  ⟨(label_preservation (("A \\label\x7bfig:a\x7d B").toList) (("A ").toList)
      (("fig:a").toList) ((" B").toList) (by decide) (by decide) (by decide)).1,
    (label_preservation nestedPlainTable (("\\begin\x7btable\x7d\\caption\x7bt").toList)
      (("l").toList)
      (("\x7d\\begin\x7btabular\x7d\x7bc\x7da\\begin\x7btabular\x7d\x7bc\x7dx\\end\x7btabular\x7db\\end\x7btabular\x7d\\end\x7btable\x7d").toList)
      (by decide) (by decide) (by decide)).2 _ (by decide)⟩

/- ### Final cleanup and its idempotence (C6) -/

/- ### Final cleanup (formats.py, lines 92-112) -/

/-- `re.sub(r'[ \t]*\n[ \t]*', '\n', s)`: the first argument is true when
the scanner is consuming the trailing `[ \t]*` of a match, the second
accumulates (reversed) a pending run of spaces and tabs that is a
candidate leading `[ \t]*`. -/
def stripNLAux : Bool → List Char → List Char → List Char
  | false, pend, [] => pend.reverse
  | false, pend, c :: cs =>
    if isSpTab c then stripNLAux false (c :: pend) cs
    else if c = '\n' then '\n' :: stripNLAux true [] cs
    else pend.reverse ++ c :: stripNLAux false [] cs
  | true, _, [] => []
  | true, _, c :: cs =>
    if isSpTab c then stripNLAux true [] cs
    else if c = '\n' then '\n' :: stripNLAux true [] cs
    else c :: stripNLAux false [] cs

/-- Whitespace stripping around newlines. -/
def stripAroundNewlines (s : List Char) : List Char :=
  stripNLAux false [] s

/-- `re.sub(r' {2,}', ' ', s)`: true when the scanner is consuming the
tail of a space run whose first space was already emitted. -/
def cspAux : Bool → List Char → List Char
  | _, [] => []
  | false, c :: cs => if c = ' ' then ' ' :: cspAux true cs else c :: cspAux false cs
  | true, c :: cs => if c = ' ' then cspAux true cs else c :: cspAux false cs

/-- Space-run collapsing. -/
def collapseSpaces (s : List Char) : List Char :=
  cspAux false s

/-- `final_cleanup`: strip spaces and tabs around newlines, collapse space
runs, collapse newline runs, trim, and append exactly one newline. -/
def final_cleanup (s : List Char) : List Char :=
  pyStrip (collapseNewlines (collapseSpaces (stripAroundNewlines s))) ++ ['\n']

/- ### Adjacency predicates used to characterize cleaned-up text -/

/-- The pair `a, b` of adjacent characters has no space or tab touching a
newline. -/
def pairOK (a b : Char) : Bool :=
  !(isSpTab a && b = '\n') && !(a = '\n' && isSpTab b)

/-- No space or tab adjacent to a newline anywhere. -/
def noSpNL : List Char → Bool
  | a :: b :: cs => pairOK a b && noSpNL (b :: cs)
  | _ => true

/-- No two adjacent spaces. -/
def noDblSpace : List Char → Bool
  | a :: b :: cs => !(a = ' ' && b = ' ') && noDblSpace (b :: cs)
  | _ => true

/-- No three adjacent newlines. -/
def noTripleNL : List Char → Bool
  | a :: b :: c :: cs => !(a = '\n' && b = '\n' && c = '\n') && noTripleNL (b :: c :: cs)
  | _ => true

theorem noSpNL_cons (a : Char) (l : List Char) :
    noSpNL (a :: l) = true ↔
      (∀ b, l.head? = some b → pairOK a b = true) ∧ noSpNL l = true := by
  cases l <;> simp [noSpNL]

theorem noDblSpace_cons (a : Char) (l : List Char) :
    noDblSpace (a :: l) = true ↔
      (∀ b, l.head? = some b → ¬(a = ' ' ∧ b = ' ')) ∧ noDblSpace l = true := by
  cases l with
  | nil => simp [noDblSpace]
  | cons b t => simp [noDblSpace]; tauto

theorem noTripleNL_cons (a : Char) (l : List Char) :
    noTripleNL (a :: l) = true ↔
      (∀ b c t, l = b :: c :: t → ¬(a = '\n' ∧ b = '\n' ∧ c = '\n')) ∧
        noTripleNL l = true := by
  cases l with
  | nil => simp [noTripleNL]
  | cons b l' =>
    cases l' with
    | nil => simp [noTripleNL]
    | cons c t => simp [noTripleNL]; tauto

theorem noSpNL_tail (a : Char) (l : List Char) (h : noSpNL (a :: l) = true) :
    noSpNL l = true :=
  ((noSpNL_cons a l).mp h).2

theorem noDblSpace_tail (a : Char) (l : List Char) (h : noDblSpace (a :: l) = true) :
    noDblSpace l = true :=
  ((noDblSpace_cons a l).mp h).2

theorem noTripleNL_tail (a : Char) (l : List Char) (h : noTripleNL (a :: l) = true) :
    noTripleNL l = true :=
  ((noTripleNL_cons a l).mp h).2



theorem head?_append_ne_nil (a b : List Char) (ha : a ≠ []) :
    (a ++ b).head? = a.head? := by
  cases a with
  | nil => exact absurd rfl ha
  | cons c l => rfl

theorem noSpNL_append_right (a b : List Char) (h : noSpNL (a ++ b) = true) :
    noSpNL b = true := by
  induction a with
  | nil => exact h
  | cons c a ih => exact ih (noSpNL_tail _ _ h)

theorem noDblSpace_append_right (a b : List Char) (h : noDblSpace (a ++ b) = true) :
    noDblSpace b = true := by
  induction a with
  | nil => exact h
  | cons c a ih => exact ih (noDblSpace_tail _ _ h)

theorem noTripleNL_append_right (a b : List Char) (h : noTripleNL (a ++ b) = true) :
    noTripleNL b = true := by
  induction a with
  | nil => exact h
  | cons c a ih => exact ih (noTripleNL_tail _ _ h)

theorem noSpNL_append_left (a b : List Char) (h : noSpNL (a ++ b) = true) :
    noSpNL a = true := by
  induction a with
  | nil => rfl
  | cons c a ih =>
    rw [noSpNL_cons]
    obtain ⟨h1, h2⟩ := (noSpNL_cons c (a ++ b)).mp h
    refine ⟨?_, ih h2⟩
    intro d hd
    exact h1 d (by rw [head?_append_ne_nil a b (by intro e; rw [e] at hd; cases hd), hd])

theorem noDblSpace_append_left (a b : List Char) (h : noDblSpace (a ++ b) = true) :
    noDblSpace a = true := by
  induction a with
  | nil => rfl
  | cons c a ih =>
    rw [noDblSpace_cons]
    obtain ⟨h1, h2⟩ := (noDblSpace_cons c (a ++ b)).mp h
    refine ⟨?_, ih h2⟩
    intro d hd
    exact h1 d (by rw [head?_append_ne_nil a b (by intro e; rw [e] at hd; cases hd), hd])

theorem noTripleNL_append_left (a b : List Char) (h : noTripleNL (a ++ b) = true) :
    noTripleNL a = true := by
  induction a with
  | nil => rfl
  | cons c a ih =>
    rw [noTripleNL_cons]
    obtain ⟨h1, h2⟩ := (noTripleNL_cons c (a ++ b)).mp h
    refine ⟨?_, ih h2⟩
    intro d e t hde
    exact h1 d e (t ++ b) (by rw [hde]; simp)



theorem trimLeft_suffix (s : List Char) : trimLeft s <:+ s :=
  List.dropWhile_suffix _

theorem trimRight_prefix (s : List Char) : trimRight s <+: s := by
  obtain ⟨t, ht⟩ := List.dropWhile_suffix (l := s.reverse) isPySpace
  exact ⟨t.reverse, by rw [trimRight, ← List.reverse_append, ht, List.reverse_reverse]⟩

theorem noSpNL_pyStrip (s : List Char) (h : noSpNL s = true) :
    noSpNL (pyStrip s) = true := by
  obtain ⟨t, ht⟩ := trimLeft_suffix s
  have h1 : noSpNL (trimLeft s) = true := noSpNL_append_right t _ (by rw [ht]; exact h)
  obtain ⟨u, hu⟩ := trimRight_prefix (trimLeft s)
  exact noSpNL_append_left _ u (by rw [pyStrip, hu]; exact h1)

theorem noDblSpace_pyStrip (s : List Char) (h : noDblSpace s = true) :
    noDblSpace (pyStrip s) = true := by
  obtain ⟨t, ht⟩ := trimLeft_suffix s
  have h1 : noDblSpace (trimLeft s) = true :=
    noDblSpace_append_right t _ (by rw [ht]; exact h)
  obtain ⟨u, hu⟩ := trimRight_prefix (trimLeft s)
  exact noDblSpace_append_left _ u (by rw [pyStrip, hu]; exact h1)

theorem noTripleNL_pyStrip (s : List Char) (h : noTripleNL s = true) :
    noTripleNL (pyStrip s) = true := by
  obtain ⟨t, ht⟩ := trimLeft_suffix s
  have h1 : noTripleNL (trimLeft s) = true :=
    noTripleNL_append_right t _ (by rw [ht]; exact h)
  obtain ⟨u, hu⟩ := trimRight_prefix (trimLeft s)
  exact noTripleNL_append_left _ u (by rw [pyStrip, hu]; exact h1)

theorem head?_dropWhile_false (p : Char → Bool) (l : List Char) (c : Char)
    (hc : (l.dropWhile p).head? = some c) : p c = false := by
  have h := List.head?_dropWhile_not p l
  rw [hc] at h
  exact h

theorem pyStrip_getLast (s : List Char) (c : Char)
    (hc : (pyStrip s).getLast? = some c) : isPySpace c = false := by
  have h1 : pyStrip s = ((trimLeft s).reverse.dropWhile isPySpace).reverse := rfl
  rw [h1, List.getLast?_reverse] at hc
  exact head?_dropWhile_false isPySpace _ c hc

theorem pyStrip_head (s : List Char) (c : Char)
    (hc : (pyStrip s).head? = some c) : isPySpace c = false := by
  obtain ⟨u, hu⟩ := trimRight_prefix (trimLeft s)
  have hne : pyStrip s ≠ [] := by
    intro e
    rw [e] at hc
    cases hc
  have hne' : trimRight (trimLeft s) ≠ [] := hne
  have h2 : (trimLeft s).head? = some c := by
    rw [← hu, head?_append_ne_nil _ _ hne']
    exact hc
  exact head?_dropWhile_false isPySpace s c h2



theorem sptab_ne_nl (a : Char) (ha : isSpTab a = true) : a ≠ '\n' := by
  intro e
  rw [e] at ha
  exact absurd ha (by decide)

theorem pairOK_of_sptab (a b : Char) (ha : isSpTab a = true) (hb : b ≠ '\n') :
    pairOK a b = true := by
  have ha' : a ≠ '\n' := sptab_ne_nl a ha
  simp [pairOK, hb, ha']

theorem pairOK_of_neutral (a : Char) (ha : isSpTab a = false) (ha' : a ≠ '\n') :
    ∀ b, pairOK a b = true := by
  intro b
  simp [pairOK, ha, ha']

theorem pairOK_nl (b : Char) (hb : isSpTab b = false) : pairOK '\n' b = true := by
  have h0 : isSpTab '\n' = false := by decide
  simp [pairOK, hb, h0]

theorem pairOK_sptab_nl_false (a : Char) (h : pairOK a '\n' = true) :
    isSpTab a = false := by
  simp [pairOK] at h
  rcases h with ⟨h1, _⟩
  simpa using h1

theorem pairOK_nl_sptab_false (b : Char) (h : pairOK '\n' b = true) :
    isSpTab b = false := by
  simp [pairOK] at h
  exact h.2

theorem noSpNL_all_sptab (l : List Char) (hl : ∀ a ∈ l, isSpTab a = true) :
    noSpNL l = true := by
  induction l with
  | nil => rfl
  | cons a l ih =>
    rw [noSpNL_cons]
    refine ⟨?_, ih (fun b hb => hl b (List.mem_cons_of_mem _ hb))⟩
    intro b hb
    have hbm : b ∈ l := by
      cases l with
      | nil => cases hb
      | cons x xs =>
        have hbx : x = b := by simpa using hb
        rw [← hbx]
        simp
    exact pairOK_of_sptab a b (hl a (by simp))
      (sptab_ne_nl b (hl b (List.mem_cons_of_mem _ hbm)))

theorem noSpNL_sptabs_append (p : List Char) (hp : ∀ a ∈ p, isSpTab a = true)
    (c : Char) (l : List Char) (hc : c ≠ '\n') (h : noSpNL (c :: l) = true) :
    noSpNL (p ++ c :: l) = true := by
  induction p with
  | nil => exact h
  | cons a p ih =>
    have ha := hp a (by simp)
    have hp' : ∀ b ∈ p, isSpTab b = true := fun b hb => hp b (by simp [hb])
    rw [List.cons_append, noSpNL_cons]
    refine ⟨?_, ih hp'⟩
    intro b hb
    cases p with
    | nil =>
      have hb' : c = b := by simpa using hb
      rw [← hb']
      exact pairOK_of_sptab a c ha hc
    | cons a2 p2 =>
      have hb' : a2 = b := by simpa using hb
      rw [← hb']
      exact pairOK_of_sptab a a2 ha (sptab_ne_nl a2 (hp' a2 (by simp)))

theorem stripNL_props :
    ∀ (s : List Char),
      (∀ pend, (∀ a ∈ pend, isSpTab a = true) →
          noSpNL (stripNLAux false pend s) = true) ∧
        (noSpNL (stripNLAux true [] s) = true ∧
          ∀ d, (stripNLAux true [] s).head? = some d → isSpTab d = false) := by
  intro s
  induction s with
  | nil =>
    refine ⟨fun pend hp => ?_, rfl, fun d hd => by cases hd⟩
    show noSpNL pend.reverse = true
    exact noSpNL_all_sptab _ (fun a ha => hp a (List.mem_reverse.mp ha))
  | cons c cs ih =>
    have ihF := ih.1
    have ihT := ih.2.1
    have ihTh := ih.2.2
    by_cases hsp : isSpTab c = true
    · constructor
      · intro pend hp
        simp only [stripNLAux]
        rw [if_pos hsp]
        exact ihF (c :: pend) (by
          intro a ha
          rcases List.mem_cons.mp ha with rfl | hm
          · exact hsp
          · exact hp a hm)
      · constructor
        · simp only [stripNLAux]
          rw [if_pos hsp]
          exact ihT
        · simp only [stripNLAux]
          rw [if_pos hsp]
          exact ihTh
    · by_cases hnl : c = '\n'
      · constructor
        · intro pend hp
          simp only [stripNLAux]
          rw [if_neg hsp, if_pos hnl, noSpNL_cons]
          exact ⟨fun d hd => pairOK_nl d (ihTh d hd), ihT⟩
        · constructor
          · simp only [stripNLAux]
            rw [if_neg hsp, if_pos hnl, noSpNL_cons]
            exact ⟨fun d hd => pairOK_nl d (ihTh d hd), ihT⟩
          · simp only [stripNLAux]
            rw [if_neg hsp, if_pos hnl]
            intro d hd
            have hd' : '\n' = d := by simpa using hd
            rw [← hd']
            decide
      · constructor
        · intro pend hp
          simp only [stripNLAux]
          rw [if_neg hsp, if_neg hnl]
          refine noSpNL_sptabs_append pend.reverse
            (fun a ha => hp a (List.mem_reverse.mp ha)) c _ hnl ?_
          rw [noSpNL_cons]
          exact ⟨fun d _ => pairOK_of_neutral c (by simpa using hsp) hnl d,
            ihF [] (by intro a ha; cases ha)⟩
        · constructor
          · simp only [stripNLAux]
            rw [if_neg hsp, if_neg hnl, noSpNL_cons]
            exact ⟨fun d _ => pairOK_of_neutral c (by simpa using hsp) hnl d,
              ihF [] (by intro a ha; cases ha)⟩
          · simp only [stripNLAux]
            rw [if_neg hsp, if_neg hnl]
            intro d hd
            have hd' : c = d := by simpa using hd
            rw [← hd']
            simpa using hsp

theorem stripAroundNewlines_noSpNL (s : List Char) :
    noSpNL (stripAroundNewlines s) = true :=
  (stripNL_props s).1 [] (by intro a ha; cases ha)

theorem stripNL_id :
    ∀ (s : List Char),
      (∀ pend, (∀ a ∈ pend, isSpTab a = true) →
          noSpNL (pend.reverse ++ s) = true →
          stripNLAux false pend s = pend.reverse ++ s) ∧
        (noSpNL ('\n' :: s) = true → stripNLAux true [] s = s) := by
  intro s
  induction s with
  | nil =>
    refine ⟨fun pend hp h => ?_, fun h => rfl⟩
    show pend.reverse = pend.reverse ++ []
    simp
  | cons c cs ih =>
    have ihF := ih.1
    have ihT := ih.2
    by_cases hsp : isSpTab c = true
    · constructor
      · intro pend hp h
        simp only [stripNLAux]
        rw [if_pos hsp]
        have hp' : ∀ a ∈ c :: pend, isSpTab a = true := by
          intro a ha
          rcases List.mem_cons.mp ha with rfl | hm
          · exact hsp
          · exact hp a hm
        have h' : noSpNL ((c :: pend).reverse ++ cs) = true := by
          simpa using h
        rw [ihF (c :: pend) hp' h']
        simp
      · intro h
        exfalso
        have hpair : pairOK '\n' c = true := ((noSpNL_cons _ _).mp h).1 c rfl
        have hf := pairOK_nl_sptab_false c hpair
        rw [hsp] at hf
        cases hf
    · by_cases hnl : c = '\n'
      · subst hnl
        constructor
        · intro pend hp h
          simp only [stripNLAux]
          rw [if_neg hsp, if_pos trivial]
          cases pend with
          | nil =>
            rw [ihT (by simpa using h)]
            simp
          | cons p0 p' =>
            exfalso
            have h' : noSpNL (p'.reverse ++ (p0 :: '\n' :: cs)) = true := by
              simpa using h
            have h2 := noSpNL_append_right p'.reverse _ h'
            have hpair : pairOK p0 '\n' = true := ((noSpNL_cons _ _).mp h2).1 '\n' rfl
            have hf := pairOK_sptab_nl_false p0 hpair
            rw [hp p0 (by simp)] at hf
            cases hf
        · intro h
          simp only [stripNLAux]
          rw [if_neg hsp, if_pos trivial]
          rw [ihT (noSpNL_tail _ _ h)]
      · constructor
        · intro pend hp h
          simp only [stripNLAux]
          rw [if_neg hsp, if_neg hnl]
          have hcs : noSpNL cs = true :=
            noSpNL_tail _ _ (noSpNL_append_right pend.reverse _ h)
          rw [ihF [] (by intro a ha; cases ha) hcs]
          simp
        · intro h
          simp only [stripNLAux]
          rw [if_neg hsp, if_neg hnl]
          have hcs : noSpNL cs = true := noSpNL_tail _ _ (noSpNL_tail _ _ h)
          rw [ihF [] (by intro a ha; cases ha) hcs]
          simp

theorem stripAroundNewlines_id (s : List Char) (h : noSpNL s = true) :
    stripAroundNewlines s = s :=
  (stripNL_id s).1 [] (by intro a ha; cases ha) h



theorem cspAux_false_space (cs : List Char) :
    cspAux false (' ' :: cs) = ' ' :: cspAux true cs := rfl

theorem cspAux_true_space (cs : List Char) :
    cspAux true (' ' :: cs) = cspAux true cs := rfl

theorem cspAux_props :
    ∀ (s : List Char),
      noDblSpace (cspAux false s) = true ∧ noDblSpace (cspAux true s) = true ∧
        ∀ d, (cspAux true s).head? = some d → d ≠ ' ' := by
  intro s
  induction s with
  | nil => exact ⟨rfl, rfl, fun d hd => by cases hd⟩
  | cons c cs ih =>
    have ihF := ih.1
    have ihT := ih.2.1
    have ihTh := ih.2.2
    by_cases hc : c = ' '
    · subst hc
      refine ⟨?_, ?_, ?_⟩
      · rw [cspAux_false_space, noDblSpace_cons]
        refine ⟨fun b hb => ?_, ihT⟩
        intro hb2
        exact ihTh b hb hb2.2
      · rw [cspAux_true_space]
        exact ihT
      · rw [cspAux_true_space]
        exact ihTh
    · refine ⟨?_, ?_, ?_⟩
      · simp only [cspAux, if_neg hc]
        rw [noDblSpace_cons]
        exact ⟨fun b _ hb' => hc hb'.1, ihF⟩
      · simp only [cspAux, if_neg hc]
        rw [noDblSpace_cons]
        exact ⟨fun b _ hb' => hc hb'.1, ihF⟩
      · simp only [cspAux, if_neg hc]
        intro d hd
        have : c = d := by simpa using hd
        rw [← this]
        exact hc

theorem collapseSpaces_noDblSpace (s : List Char) :
    noDblSpace (collapseSpaces s) = true :=
  (cspAux_props s).1

theorem cspAux_head (s : List Char) : (cspAux false s).head? = s.head? := by
  cases s with
  | nil => rfl
  | cons c cs =>
    by_cases hc : c = ' '
    · subst hc
      rw [cspAux_false_space]
      rfl
    · simp only [cspAux, if_neg hc]
      rfl

theorem cspAux_noSpNL :
    ∀ (s : List Char),
      (∀ a, noSpNL (a :: s) = true → noSpNL (a :: cspAux false s) = true) ∧
        (∀ a, isSpTab a = true → noSpNL (a :: s) = true →
          noSpNL (a :: cspAux true s) = true) := by
  intro s
  induction s with
  | nil => exact ⟨fun a h => h, fun a _ _ => rfl⟩
  | cons c cs ih =>
    have ihF := ih.1
    have ihT := ih.2
    constructor
    · intro a h
      have hpair : pairOK a c = true := ((noSpNL_cons _ _).mp h).1 c rfl
      have htail : noSpNL (c :: cs) = true := ((noSpNL_cons _ _).mp h).2
      by_cases hc : c = ' '
      · subst hc
        rw [cspAux_false_space, noSpNL_cons]
        refine ⟨fun b hb => ?_, ?_⟩
        · have : ' ' = b := by simpa using hb
          rw [← this]
          exact hpair
        · exact ihT ' ' (by decide) htail
      · simp only [cspAux, if_neg hc]
        rw [noSpNL_cons]
        refine ⟨fun b hb => ?_, ihF c htail⟩
        have hb2 : (c :: cspAux false cs).head? = some b := hb
        have : c = b := by simpa using hb2
        rw [← this]
        exact hpair
    · intro a ha h
      have hpair : pairOK a c = true := ((noSpNL_cons _ _).mp h).1 c rfl
      have htail : noSpNL (c :: cs) = true := ((noSpNL_cons _ _).mp h).2
      by_cases hc : c = ' '
      · subst hc
        rw [cspAux_true_space]
        refine ihT a ha ?_
        rw [noSpNL_cons]
        refine ⟨fun b hb => ?_, noSpNL_tail _ _ htail⟩
        -- pair (a, head cs): from (a, ' ') and (' ', head cs)
        have hp2 : pairOK ' ' b = true := ((noSpNL_cons _ _).mp htail).1 b hb
        have hbnl : b ≠ '\n' := by
          intro e
          rw [e] at hp2
          have := pairOK_sptab_nl_false ' ' hp2
          exact absurd this (by decide)
        exact pairOK_of_sptab a b ha hbnl
      · simp only [cspAux, if_neg hc]
        rw [noSpNL_cons]
        refine ⟨fun b hb => ?_, ihF c htail⟩
        have hb2 : (c :: cspAux false cs).head? = some b := hb
        have : c = b := by simpa using hb2
        rw [← this]
        exact hpair

theorem collapseSpaces_noSpNL (s : List Char) (h : noSpNL s = true) :
    noSpNL (collapseSpaces s) = true := by
  cases s with
  | nil => rfl
  | cons c cs =>
    show noSpNL (cspAux false (c :: cs)) = true
    by_cases hc : c = ' '
    · subst hc
      rw [cspAux_false_space]
      exact (cspAux_noSpNL cs).2 ' ' (by decide) h
    · simp only [cspAux, if_neg hc]
      exact (cspAux_noSpNL cs).1 c h

theorem cspAux_id :
    ∀ (s : List Char),
      (noDblSpace s = true → cspAux false s = s) ∧
        (noDblSpace (' ' :: s) = true → cspAux true s = s) := by
  intro s
  induction s with
  | nil => exact ⟨fun _ => rfl, fun _ => rfl⟩
  | cons c cs ih =>
    have ihF := ih.1
    have ihT := ih.2
    constructor
    · intro h
      by_cases hc : c = ' '
      · subst hc
        rw [cspAux_false_space, ihT h]
      · simp only [cspAux, if_neg hc]
        rw [ihF (noDblSpace_tail _ _ h)]
    · intro h
      by_cases hc : c = ' '
      · subst hc
        exfalso
        have := ((noDblSpace_cons _ _).mp h).1 ' ' rfl
        exact this ⟨rfl, rfl⟩
      · simp only [cspAux, if_neg hc]
        rw [ihF (noDblSpace_tail _ _ (noDblSpace_tail _ _ h))]

theorem collapseSpaces_id (s : List Char) (h : noDblSpace s = true) :
    collapseSpaces s = s :=
  (cspAux_id s).1 h



theorem cnlAux_nl (r : Nat) (cs : List Char) :
    cnlAux r ('\n' :: cs) =
      if r < 2 then '\n' :: cnlAux (r + 1) cs else cnlAux r cs := rfl

theorem cnlAux_other (r : Nat) (c : Char) (cs : List Char) (hc : c ≠ '\n') :
    cnlAux r (c :: cs) = c :: cnlAux 0 cs := by
  simp only [cnlAux, if_neg hc]

theorem cnlAux_head0 (s : List Char) : (cnlAux 0 s).head? = s.head? := by
  cases s with
  | nil => rfl
  | cons c cs =>
    by_cases hc : c = '\n'
    · subst hc
      rw [cnlAux_nl, if_pos (by omega)]
      rfl
    · rw [cnlAux_other 0 c cs hc]
      rfl

theorem noTripleNL_nls_append (r : Nat) (hr : r ≤ 2) (c : Char) (hc : c ≠ '\n')
    (T : List Char) (h : noTripleNL (c :: T) = true) :
    noTripleNL (List.replicate r '\n' ++ c :: T) = true := by
  interval_cases r
  · exact h
  · show noTripleNL ('\n' :: c :: T) = true
    rw [noTripleNL_cons]
    refine ⟨fun b e t hbe => ?_, h⟩
    have hb : b = c := by
      have := congrArg List.head? hbe
      simpa using this.symm
    intro hcon
    exact hc (by rw [← hb]; exact hcon.2.1)
  · show noTripleNL ('\n' :: '\n' :: c :: T) = true
    rw [noTripleNL_cons]
    constructor
    · intro b e t hbe
      obtain ⟨hb, he, -⟩ : '\n' = b ∧ c = e ∧ T = t := by
        simpa using hbe
      intro hcon
      exact hc (by rw [he]; exact hcon.2.2)
    · rw [noTripleNL_cons]
      refine ⟨fun b e t hbe => ?_, h⟩
      have hb : b = c := by
        have := congrArg List.head? hbe
        simpa using this.symm
      intro hcon
      exact hc (by rw [← hb]; exact hcon.2.1)

theorem cnlAux_noTripleNL :
    ∀ (s : List Char) (r : Nat), r ≤ 2 →
      noTripleNL (List.replicate r '\n' ++ cnlAux r s) = true := by
  intro s
  induction s with
  | nil =>
    intro r hr
    show noTripleNL (List.replicate r '\n' ++ []) = true
    interval_cases r <;> decide
  | cons c cs ih =>
    intro r hr
    by_cases hc : c = '\n'
    · subst hc
      rw [cnlAux_nl]
      by_cases hlt : r < 2
      · rw [if_pos hlt]
        have hrw : List.replicate r '\n' ++ '\n' :: cnlAux (r + 1) cs
            = List.replicate (r + 1) '\n' ++ cnlAux (r + 1) cs := by
          rw [List.replicate_succ']
          simp
        rw [hrw]
        exact ih (r + 1) (by omega)
      · rw [if_neg hlt]
        exact ih r hr
    · rw [cnlAux_other r c cs hc]
      refine noTripleNL_nls_append r hr c hc _ ?_
      rw [noTripleNL_cons]
      refine ⟨fun b e t hbe => fun hcon => hc hcon.1, ?_⟩
      have h0 := ih 0 (by omega)
      simpa using h0

theorem collapseNewlines_noTripleNL (s : List Char) :
    noTripleNL (collapseNewlines s) = true := by
  have h0 := cnlAux_noTripleNL s 0 (by omega)
  simpa [collapseNewlines] using h0

theorem cnlAux_noSpNL :
    ∀ (s : List Char),
      (∀ a, noSpNL (a :: s) = true → noSpNL (a :: cnlAux 0 s) = true) ∧
        (∀ r, noSpNL ('\n' :: s) = true → noSpNL ('\n' :: cnlAux r s) = true) := by
  intro s
  induction s with
  | nil => exact ⟨fun a _ => rfl, fun r _ => rfl⟩
  | cons c cs ih =>
    have ihF := ih.1
    have ihT := ih.2
    constructor
    · intro a h
      have hpair := ((noSpNL_cons _ _).mp h).1 c rfl
      have htail := ((noSpNL_cons _ _).mp h).2
      by_cases hc : c = '\n'
      · subst hc
        rw [cnlAux_nl, if_pos (by omega), noSpNL_cons]
        refine ⟨fun b hb => ?_, ihT 1 htail⟩
        have hb2 : '\n' = b := by simpa using hb
        rw [← hb2]
        exact hpair
      · rw [cnlAux_other 0 c cs hc, noSpNL_cons]
        refine ⟨fun b hb => ?_, ihF c htail⟩
        have hb2 : c = b := by simpa using hb
        rw [← hb2]
        exact hpair
    · intro r h
      have hpair := ((noSpNL_cons _ _).mp h).1 c rfl
      have htail := ((noSpNL_cons _ _).mp h).2
      by_cases hc : c = '\n'
      · subst hc
        rw [cnlAux_nl]
        by_cases hlt : r < 2
        · rw [if_pos hlt, noSpNL_cons]
          refine ⟨fun b hb => ?_, ihT (r + 1) htail⟩
          have hb2 : '\n' = b := by simpa using hb
          rw [← hb2]
          decide
        · rw [if_neg hlt]
          exact ihT r htail
      · rw [cnlAux_other r c cs hc, noSpNL_cons]
        refine ⟨fun b hb => ?_, ihF c htail⟩
        have hb2 : c = b := by simpa using hb
        rw [← hb2]
        exact hpair

theorem collapseNewlines_noSpNL (s : List Char) (h : noSpNL s = true) :
    noSpNL (collapseNewlines s) = true := by
  cases s with
  | nil => rfl
  | cons c cs =>
    show noSpNL (cnlAux 0 (c :: cs)) = true
    by_cases hc : c = '\n'
    · subst hc
      rw [cnlAux_nl, if_pos (by omega)]
      exact (cnlAux_noSpNL cs).2 1 h
    · rw [cnlAux_other 0 c cs hc]
      exact (cnlAux_noSpNL cs).1 c h

theorem cnlAux_noDblSpace :
    ∀ (s : List Char) (r : Nat), noDblSpace s = true →
      noDblSpace (cnlAux r s) = true := by
  intro s
  induction s with
  | nil => intro r _; rfl
  | cons c cs ih =>
    intro r h
    by_cases hc : c = '\n'
    · subst hc
      rw [cnlAux_nl]
      by_cases hlt : r < 2
      · rw [if_pos hlt, noDblSpace_cons]
        refine ⟨fun b _ => ?_, ih (r + 1) (noDblSpace_tail _ _ h)⟩
        intro hcon
        exact absurd hcon.1 (by decide)
      · rw [if_neg hlt]
        exact ih r (noDblSpace_tail _ _ h)
    · rw [cnlAux_other r c cs hc, noDblSpace_cons]
      refine ⟨fun b hb => ?_, ih 0 (noDblSpace_tail _ _ h)⟩
      rw [cnlAux_head0] at hb
      exact ((noDblSpace_cons _ _).mp h).1 b hb

theorem collapseNewlines_noDblSpace (s : List Char) (h : noDblSpace s = true) :
    noDblSpace (collapseNewlines s) = true :=
  cnlAux_noDblSpace s 0 h

theorem cnlAux_id :
    ∀ (s : List Char),
      (noTripleNL s = true → cnlAux 0 s = s) ∧
        (noTripleNL ('\n' :: s) = true → cnlAux 1 s = s) ∧
        (noTripleNL ('\n' :: '\n' :: s) = true → cnlAux 2 s = s) := by
  intro s
  induction s with
  | nil => exact ⟨fun _ => rfl, fun _ => rfl, fun _ => rfl⟩
  | cons c cs ih =>
    have ih0 := ih.1
    have ih1 := ih.2.1
    have ih2 := ih.2.2
    refine ⟨?_, ?_, ?_⟩
    · intro h
      by_cases hc : c = '\n'
      · subst hc
        rw [cnlAux_nl, if_pos (by omega), ih1 h]
      · rw [cnlAux_other 0 c cs hc, ih0 (noTripleNL_tail _ _ h)]
    · intro h
      by_cases hc : c = '\n'
      · subst hc
        rw [cnlAux_nl, if_pos (by omega), ih2 h]
      · rw [cnlAux_other 1 c cs hc,
          ih0 (noTripleNL_tail _ _ (noTripleNL_tail _ _ h))]
    · intro h
      by_cases hc : c = '\n'
      · subst hc
        exfalso
        have hwin := ((noTripleNL_cons _ _).mp h).1 '\n' '\n' cs rfl
        exact hwin ⟨rfl, rfl, rfl⟩
      · rw [cnlAux_other 2 c cs hc,
          ih0 (noTripleNL_tail _ _ (noTripleNL_tail _ _ (noTripleNL_tail _ _ h)))]

theorem collapseNewlines_id (s : List Char) (h : noTripleNL s = true) :
    collapseNewlines s = s :=
  (cnlAux_id s).1 h



theorem isSpTab_of_isPySpace (c : Char) (h : isPySpace c = false) :
    isSpTab c = false := by
  by_cases hc : isSpTab c = true
  · exfalso
    have hm : c = ' ' ∨ c = '\t' := by simpa [isSpTab] using hc
    rcases hm with rfl | rfl <;> exact absurd h (by decide)
  · simpa using hc

theorem pairOK_to_nl (c : Char) (hc : isSpTab c = false) : pairOK c '\n' = true := by
  have h2 : isSpTab '\n' = false := by decide
  simp [pairOK, hc, h2]

theorem noSpNL_append_nl :
    ∀ (S : List Char), noSpNL S = true →
      (∀ c, S.getLast? = some c → isSpTab c = false) →
      noSpNL (S ++ ['\n']) = true := by
  intro S
  induction S with
  | nil => intro _ _; rfl
  | cons c S' ih =>
    intro h hl
    rw [List.cons_append, noSpNL_cons]
    cases S' with
    | nil =>
      refine ⟨fun b hb => ?_, rfl⟩
      have hb' : '\n' = b := by simpa using hb
      rw [← hb']
      exact pairOK_to_nl c (hl c rfl)
    | cons d S'' =>
      have hl' : ∀ e, (d :: S'').getLast? = some e → isSpTab e = false := by
        intro e he
        apply hl
        rw [List.getLast?_cons_cons]
        exact he
      refine ⟨fun b hb => ?_, ih (noSpNL_tail _ _ h) hl'⟩
      have hb2 : d = b := by simpa using hb
      rw [← hb2]
      exact ((noSpNL_cons _ _).mp h).1 d rfl

theorem noDblSpace_append_nl :
    ∀ (S : List Char), noDblSpace S = true → noDblSpace (S ++ ['\n']) = true := by
  intro S
  induction S with
  | nil => intro _; rfl
  | cons c S' ih =>
    intro h
    rw [List.cons_append, noDblSpace_cons]
    cases S' with
    | nil =>
      refine ⟨fun b hb => ?_, rfl⟩
      have hb' : '\n' = b := by simpa using hb
      rw [← hb']
      intro hcon
      exact absurd hcon.2 (by decide)
    | cons d S'' =>
      refine ⟨fun b hb => ?_, ih (noDblSpace_tail _ _ h)⟩
      have hb2 : d = b := by simpa using hb
      rw [← hb2]
      exact ((noDblSpace_cons _ _).mp h).1 d rfl

theorem noTripleNL_append_nl :
    ∀ (S : List Char), noTripleNL S = true →
      (∀ c, S.getLast? = some c → c ≠ '\n') →
      noTripleNL (S ++ ['\n']) = true := by
  intro S
  induction S with
  | nil => intro _ _; rfl
  | cons c S' ih =>
    intro h hl
    rw [List.cons_append, noTripleNL_cons]
    cases S' with
    | nil =>
      refine ⟨fun b e t hbe => ?_, rfl⟩
      exfalso
      injection hbe with h1 h2
      simp at h2
    | cons d S'' =>
      have hl' : ∀ e, (d :: S'').getLast? = some e → e ≠ '\n' := by
        intro e he
        apply hl
        rw [List.getLast?_cons_cons]
        exact he
      refine ⟨fun b e t hbe => ?_, ih (noTripleNL_tail _ _ h) hl'⟩
      injection hbe with h1 h2
      cases S'' with
      | nil =>
        injection h2 with h3 h4
        intro hcon
        have hd : d ≠ '\n' := hl d (by simp)
        exact hd (by rw [h1]; exact hcon.2.1)
      | cons d2 S''' =>
        injection h2 with h3 h4
        intro hcon
        have hwin := ((noTripleNL_cons _ _).mp h).1 d d2 S''' rfl
        exact hwin ⟨hcon.1, by rw [h1]; exact hcon.2.1, by rw [h3]; exact hcon.2.2⟩

theorem trimRight_append_pyspace (X : List Char) (w : Char) (hw : isPySpace w = true) :
    trimRight (X ++ [w]) = trimRight X := by
  unfold trimRight
  rw [List.reverse_append]
  have h1 : [w].reverse ++ X.reverse = w :: X.reverse := by simp
  rw [h1, List.dropWhile_cons_of_pos hw]

theorem pyStrip_append_nl (S : List Char)
    (hh : ∀ c, S.head? = some c → isPySpace c = false)
    (hl : ∀ c, S.getLast? = some c → isPySpace c = false) :
    pyStrip (S ++ ['\n']) = S := by
  cases S with
  | nil => decide
  | cons c S' =>
    have hc := hh c rfl
    have h1 : trimLeft ((c :: S') ++ ['\n']) = (c :: S') ++ ['\n'] := by
      rw [List.cons_append]
      simp [trimLeft, List.dropWhile_cons, hc]
    rw [pyStrip, h1, trimRight_append_pyspace _ '\n' (by decide),
      trimRight_eq_self _ hl]

/-- C6: `final_cleanup` is idempotent, and its result always ends with
exactly one trailing newline (the last character is a newline and the one
before it, when present, is not). -/
theorem final_cleanup_idempotent (s : List Char) :
    final_cleanup (final_cleanup s) = final_cleanup s ∧
      (final_cleanup s).getLast? = some '\n' ∧
      (final_cleanup s).dropLast.getLast? ≠ some '\n' := by
  have hA := stripAroundNewlines_noSpNL s
  have hB1 : noSpNL (collapseSpaces (stripAroundNewlines s)) = true :=
    collapseSpaces_noSpNL _ hA
  have hB2 : noDblSpace (collapseSpaces (stripAroundNewlines s)) = true :=
    collapseSpaces_noDblSpace _
  have hC1 : noSpNL (collapseNewlines (collapseSpaces (stripAroundNewlines s))) = true :=
    collapseNewlines_noSpNL _ hB1
  have hC2 : noDblSpace (collapseNewlines (collapseSpaces (stripAroundNewlines s))) = true :=
    collapseNewlines_noDblSpace _ hB2
  have hC3 : noTripleNL (collapseNewlines (collapseSpaces (stripAroundNewlines s))) = true :=
    collapseNewlines_noTripleNL _
  have hS1 := noSpNL_pyStrip _ hC1
  have hS2 := noDblSpace_pyStrip _ hC2
  have hS3 := noTripleNL_pyStrip _ hC3
  have hy1 : noSpNL (final_cleanup s) = true :=
    noSpNL_append_nl _ hS1
      (fun c hc => isSpTab_of_isPySpace c (pyStrip_getLast _ c hc))
  have hy2 : noDblSpace (final_cleanup s) = true := noDblSpace_append_nl _ hS2
  have hy3 : noTripleNL (final_cleanup s) = true :=
    noTripleNL_append_nl _ hS3 (fun c hc => by
      intro e
      subst e
      exact absurd (pyStrip_getLast _ '\n' hc) (by decide))
  refine ⟨?_, ?_, ?_⟩
  · show pyStrip (collapseNewlines (collapseSpaces
        (stripAroundNewlines (final_cleanup s)))) ++ ['\n'] = final_cleanup s
    rw [stripAroundNewlines_id _ hy1, collapseSpaces_id _ hy2,
      collapseNewlines_id _ hy3]
    show pyStrip (pyStrip (collapseNewlines (collapseSpaces (stripAroundNewlines s)))
        ++ ['\n']) ++ ['\n'] = final_cleanup s
    rw [pyStrip_append_nl _ (pyStrip_head _) (pyStrip_getLast _)]
    rfl
  · show (pyStrip (collapseNewlines (collapseSpaces (stripAroundNewlines s)))
        ++ ['\n']).getLast? = some '\n'
    simp
  · show (pyStrip (collapseNewlines (collapseSpaces (stripAroundNewlines s)))
        ++ ['\n']).dropLast.getLast? ≠ some '\n'
    rw [List.dropLast_concat]
    intro hcon
    exact absurd (pyStrip_getLast _ '\n' hcon) (by decide)

end LatexConv
